import Mathlib

/-!
# Verification of the wrapkit core

Shallow embedding of the wrapkit repository's core components
(`glob.ts`, `rate-limiter.ts`, `queue.ts`, `plugin.ts`, `state.ts`,
`wrap.ts`) together with proofs about them.

Method paths, glob patterns and error messages are modelled as lists of
characters (`Str`).  JavaScript numbers holding token counts and rates are
modelled as rationals (`ℚ`); timestamps as integers (milliseconds).
-/

namespace Wrapkit

/-- Method paths, glob patterns and error messages as lists of characters. -/
abbrev Str : Type := List Char

/-- Shorthand turning a Lean string literal into a `Str`. -/
def litStr (s : String) : Str := s.data

/-! ## Glob pattern matching (`src/glob.ts`)

`patternToRegex` splits the pattern on `'.'`, turns each segment into a
regex piece (`**` ↦ `.+`, `*` ↦ `[^.]+`, other segments are escaped so that
they match literally), joins the pieces with a literal `\.` and anchors the
whole expression.  We embed the compiled regex as a list of `RegexPart`s and
give it its matching semantics directly: the path must split into regions
separated by literal `'.'` characters, one region per part, each region
matched by its part (`.+` = any non-empty character run, which may itself
contain dots; `[^.]+` = any non-empty dot-free run; a literal matches
exactly itself — `escapeRegex` only makes the literal self-matching, so it
is the identity at this semantic level). -/

/-- JavaScript `String.prototype.split('.')` on a character list:
`"a.b"` ↦ `["a","b"]`, `""` ↦ `[""]`, `"a."` ↦ `["a",""]`. -/
def splitOnDot : Str → List Str
  | [] => [[]]
  | c :: rest =>
    if c = '.' then [] :: splitOnDot rest
    else
      match splitOnDot rest with
      | [] => [[c]]
      | s :: ss => (c :: s) :: ss

/-- One compiled segment of a pattern, mirroring `patternToRegex`. -/
inductive RegexPart : Type where
  /-- compiled from a `**` segment: the regex piece `.+` -/
  | dplus : RegexPart
  /-- compiled from a `*` segment: the regex piece `[^.]+` -/
  | ndplus : RegexPart
  /-- any other segment, escaped: matches exactly itself -/
  | lit : Str → RegexPart
deriving DecidableEq

/-- Compilation of a single pattern segment (the loop body of
`patternToRegex`). -/
def segToPart (seg : Str) : RegexPart :=
  if seg = ['*', '*'] then .dplus
  else if seg = ['*'] then .ndplus
  else .lit seg

/-- Compilation of a whole pattern (`patternToRegex`): split on dots and
compile each segment. -/
def patternParts (pattern : Str) : List RegexPart :=
  (splitOnDot pattern).map segToPart

/-- Matching of one regex part against one region of the path. -/
def partMatchesB : RegexPart → Str → Bool
  | .dplus, s => !s.isEmpty
  | .ndplus, s => !s.isEmpty && decide ('.' ∉ s)
  | .lit l, s => decide (s = l)

/-- All ways to split a character list around one occurrence of `c`:
`(pre, post) ∈ splitsAt c s` exactly when `s = pre ++ c :: post`. -/
def splitsAt (c : Char) : Str → List (Str × Str)
  | [] => []
  | x :: xs =>
    (if x = c then [(([] : Str), xs)] else []) ++
      (splitsAt c xs).map fun pr => (x :: pr.1, pr.2)

/-- Anchored matching of the compiled parts (joined by literal dots)
against the whole path: semantics of `regex.test(methodPath)` for the
regexes produced by `patternToRegex`. -/
def matchParts : List RegexPart → Str → Bool
  | [], s => s.isEmpty
  | [p], s => partMatchesB p s
  | p :: q :: ps, s =>
    (splitsAt '.' s).any fun pr => partMatchesB p pr.1 && matchParts (q :: ps) pr.2

/-- `matchPattern` from `glob.ts` (we inline the `MatchResult.isMatch`
projection). -/
def matchPattern (methodPath pattern : Str) : Bool :=
  matchParts (patternParts pattern) methodPath

/-- `matchesAnyPattern` from `glob.ts`. -/
def matchesAnyPattern (methodPath : Str) (patterns : List Str) : Bool :=
  patterns.any fun pattern => matchPattern methodPath pattern

/-- Result of `checkAccess`. -/
structure AccessCheckResult where
  isAllowed : Bool
  reason : Option Str
deriving DecidableEq

/-- The denial reason `Method "<path>" is blocked`. -/
def blockedReason (methodPath : Str) : Str :=
  litStr "Method \"" ++ methodPath ++ litStr "\" is blocked"

/-- The denial reason `Method "<path>" is not allowed`. -/
def notAllowedReason (methodPath : Str) : Str :=
  litStr "Method \"" ++ methodPath ++ litStr "\" is not allowed"

/-- `checkAccess` from `glob.ts`.  `none` models an absent
(`undefined`) list; note that an empty array is truthy in JavaScript, so
`some []` for the allowlist denies everything. -/
def checkAccess (methodPath : Str) (allowlist blocklist : Option (List Str)) :
    AccessCheckResult :=
  if (match blocklist with
      | some bl => matchesAnyPattern methodPath bl
      | none => false) then
    { isAllowed := false, reason := some (blockedReason methodPath) }
  else if (match allowlist with
      | some al => !matchesAnyPattern methodPath al
      | none => false) then
    { isAllowed := false, reason := some (notAllowedReason methodPath) }
  else
    { isAllowed := true, reason := none }

/-! ### Claim-side segment semantics of the pattern grammar

The specification describes pattern matching segment-wise: a literal
segment matches only that exact segment, `*` matches exactly one segment,
`**` matches one or more consecutive segments, and the match is anchored.
`segMatchB` states exactly that, over the path's list of segments. -/

/-- All ways to split a segment list into a non-empty prefix and a
non-empty suffix. -/
def segSplits : List Str → List (List Str × List Str)
  | [] => []
  | [_] => []
  | s :: rest₂ :: rest =>
    ([s], rest₂ :: rest) ::
      (segSplits (rest₂ :: rest)).map fun pr => (s :: pr.1, pr.2)

/-- Claim-side semantics of one pattern segment against a group of
consecutive path segments: `**` takes one or more segments, `*` exactly
one, a literal exactly itself. -/
def partSegMatches : RegexPart → List Str → Bool
  | .dplus, group => !group.isEmpty
  | .ndplus, group => decide (group.length = 1)
  | .lit l, group => decide (group = [l])

/-- Claim-side anchored matching of compiled pattern segments against the
path's segment list. -/
def segMatchB : List RegexPart → List Str → Bool
  | [], segs => segs.isEmpty
  | [p], segs => partSegMatches p segs
  | p :: q :: ps, segs =>
    (segSplits segs).any fun pr => partSegMatches p pr.1 && segMatchB (q :: ps) pr.2

/-- Join path segments with dots (the inverse of `splitOnDot` on
well-formed paths). -/
def joinDots : List Str → Str
  | [] => []
  | [s] => s
  | s :: rest₂ :: rest => s ++ '.' :: joinDots (rest₂ :: rest)

/-! ### Lemmas relating the compiled-regex matcher to the segment grammar -/

theorem bool_eq_of_iff {a b : Bool} (h : a = true ↔ b = true) : a = b := by
  cases a <;> cases b <;> simp_all

theorem joinDots_cons {s : Str} {rest : List Str} (h : rest ≠ []) :
    joinDots (s :: rest) = s ++ '.' :: joinDots rest := by
  cases rest with
  | nil => exact absurd rfl h
  | cons t r => rfl

theorem joinDots_ne_nil {segs : List Str} (hne : segs ≠ [])
    (h1 : ∀ s ∈ segs, s ≠ []) : joinDots segs ≠ [] := by
  cases segs with
  | nil => exact absurd rfl hne
  | cons s rest =>
    cases rest with
    | nil => exact h1 s (List.mem_cons_self _ _)
    | cons t r => simp [joinDots]

theorem dot_mem_joinDots {s t : Str} {rest : List Str} :
    '.' ∈ joinDots (s :: t :: rest) := by
  simp [joinDots]

theorem joinDots_append : ∀ {l : List Str} {r : List Str}, l ≠ [] → r ≠ [] →
    joinDots (l ++ r) = joinDots l ++ '.' :: joinDots r := by
  intro l
  induction l with
  | nil => intro r hl _; exact absurd rfl hl
  | cons s l ih =>
    intro r hl hr
    cases l with
    | nil =>
      cases r with
      | nil => exact absurd rfl hr
      | cons t r₂ => rfl
    | cons s₂ l₂ =>
      have h2 : joinDots ((s₂ :: l₂) ++ r) = joinDots (s₂ :: l₂) ++ '.' :: joinDots r :=
        ih (by simp) hr
      show s ++ '.' :: joinDots ((s₂ :: l₂) ++ r) =
        (s ++ '.' :: joinDots (s₂ :: l₂)) ++ '.' :: joinDots r
      rw [h2]
      simp

theorem mem_splitsAt {c : Char} : ∀ {s pre post : Str},
    (pre, post) ∈ splitsAt c s ↔ s = pre ++ c :: post := by
  intro s
  induction s with
  | nil =>
    intro pre post
    simp [splitsAt]
  | cons x xs ih =>
    intro pre post
    constructor
    · intro h
      rcases List.mem_append.mp h with h1 | h2
      · by_cases hx : x = c
        · simp [hx] at h1
          simp [h1.1, h1.2, hx]
        · simp [hx] at h1
      · obtain ⟨⟨a, b⟩, hab, heq⟩ := List.mem_map.mp h2
        injection heq with h3 h4
        subst h3; subst h4
        simp [ih.mp hab]
    · intro h
      rcases (List.cons_eq_append_iff).mp h with ⟨hpre, hrest⟩ | ⟨a, ha, hxs⟩
      · subst hpre
        injection hrest with hx hxs
        subst hxs
        simp [splitsAt, hx]
      · subst ha
        refine List.mem_append.mpr (Or.inr ?_)
        exact List.mem_map.mpr ⟨(a, post), ih.mpr hxs, rfl⟩

theorem joinDots_eq_split : ∀ {segs : List Str}, (∀ s ∈ segs, '.' ∉ s) →
    ∀ (pre post : Str),
    (joinDots segs = pre ++ '.' :: post ↔
      ∃ l r, l ≠ [] ∧ r ≠ [] ∧ segs = l ++ r ∧
        pre = joinDots l ∧ post = joinDots r) := by
  intro segs
  induction segs with
  | nil =>
    intro _ pre post
    constructor
    · intro h; exact absurd h (by simp [joinDots])
    · rintro ⟨l, r, hl, hr, habs, -, -⟩
      cases l with
      | nil => exact absurd rfl hl
      | cons a l₂ => simp at habs
  | cons s rest ih =>
    intro hdot pre post
    cases rest with
    | nil =>
      constructor
      · intro h
        have : '.' ∈ s := by
          rw [show joinDots [s] = s from rfl] at h
          rw [h]; simp
        exact absurd this (hdot s (List.mem_cons_self _ _))
      · rintro ⟨l, r, hl, hr, habs, -, -⟩
        cases l with
        | nil => exact absurd rfl hl
        | cons a l₂ =>
          simp only [List.cons_append, List.cons.injEq] at habs
          exact absurd (List.append_eq_nil.mp habs.2.symm).2 hr
    | cons t rest₂ =>
      have hJ : joinDots (s :: t :: rest₂) = s ++ '.' :: joinDots (t :: rest₂) := rfl
      constructor
      · intro h
        rw [hJ] at h
        rcases List.append_eq_append_iff.mp h with ⟨a, hpre, hrest⟩ | ⟨c, hs, hpost⟩
        · cases a with
          | nil =>
            simp at hpre hrest
            exact ⟨[s], t :: rest₂, by simp, by simp, rfl, hpre, hrest.symm⟩
          | cons x xs =>
            rw [List.cons_append] at hrest
            injection hrest with hx hrest2
            subst hx
            have ihr := (ih (fun u hu => hdot u (List.mem_cons_of_mem _ hu))
              xs post).mp hrest2
            obtain ⟨l, r, hl, hr, hsplit, hxs, hpost⟩ := ihr
            refine ⟨s :: l, r, by simp, hr, by simp [hsplit], ?_, hpost⟩
            rw [joinDots_cons hl, hpre, hxs]
        · cases c with
          | nil =>
            simp at hs hpost
            exact ⟨[s], t :: rest₂, by simp, by simp, rfl, hs.symm, hpost⟩
          | cons y ys =>
            rw [List.cons_append] at hpost
            injection hpost with hy
            have : '.' ∈ s := by rw [hs, ← hy]; simp
            exact absurd this (hdot s (List.mem_cons_self _ _))
      · rintro ⟨l, r, hl, hr, hsplit, hpre, hpost⟩
        cases l with
        | nil => exact absurd rfl hl
        | cons a l₂ =>
          simp only [List.cons_append, List.cons.injEq] at hsplit
          obtain ⟨ha, hsplit2⟩ := hsplit
          subst ha
          cases l₂ with
          | nil =>
            have hr2 : r = t :: rest₂ := by simpa using hsplit2.symm
            rw [hJ, hpre, hpost, hr2]
            rfl
          | cons b l₃ =>
            have h4 : joinDots (t :: rest₂) = joinDots (b :: l₃) ++ '.' :: joinDots r := by
              rw [hsplit2]
              exact joinDots_append (by simp) hr
            have h5 : joinDots (s :: b :: l₃) = s ++ '.' :: joinDots (b :: l₃) := rfl
            rw [hJ, hpre, hpost, h4, h5]
            simp

theorem mem_segSplits : ∀ {segs l r : List Str},
    (l, r) ∈ segSplits segs ↔ segs = l ++ r ∧ l ≠ [] ∧ r ≠ [] := by
  intro segs
  induction segs with
  | nil =>
    intro l r
    constructor
    · intro h; simp [segSplits] at h
    · rintro ⟨habs, hl, -⟩
      cases l with
      | nil => exact absurd rfl hl
      | cons a l₂ => simp at habs
  | cons s rest ih =>
    intro l r
    cases rest with
    | nil =>
      constructor
      · intro h; simp [segSplits] at h
      · rintro ⟨habs, hl, hr⟩
        cases l with
        | nil => exact absurd rfl hl
        | cons a l₂ =>
          simp only [List.cons_append, List.cons.injEq] at habs
          exact absurd (List.append_eq_nil.mp habs.2.symm).2 hr
    | cons t rest₂ =>
      constructor
      · intro h
        simp only [segSplits, List.mem_cons, List.mem_map] at h
        rcases h with h1 | ⟨⟨a, b⟩, hab, heq⟩
        · injection h1 with h2 h3
          subst h2; subst h3
          exact ⟨rfl, by simp, by simp⟩
        · injection heq with h2 h3
          subst h2; subst h3
          obtain ⟨hsplit, hane, hbne⟩ := ih.mp hab
          exact ⟨by simp [hsplit], by simp, hbne⟩
      · rintro ⟨hsplit, hl, hr⟩
        cases l with
        | nil => exact absurd rfl hl
        | cons a l₂ =>
          simp only [List.cons_append, List.cons.injEq] at hsplit
          obtain ⟨ha, hsplit2⟩ := hsplit
          subst ha
          cases l₂ with
          | nil =>
            simp at hsplit2
            simp [segSplits, hsplit2]
          | cons b l₃ =>
            simp only [segSplits, List.mem_cons, List.mem_map]
            exact Or.inr ⟨(b :: l₃, r), ih.mpr ⟨hsplit2, by simp, hr⟩, rfl⟩

theorem splitOnDot_not_mem : ∀ (s : Str), ∀ t ∈ splitOnDot s, '.' ∉ t := by
  intro s
  induction s with
  | nil =>
    intro t ht
    simp [splitOnDot] at ht
    subst ht; simp
  | cons c rest ih =>
    intro t ht
    by_cases hc : c = '.'
    · simp only [splitOnDot, if_pos hc, List.mem_cons] at ht
      rcases ht with h | h
      · subst h; simp
      · exact ih t h
    · simp only [splitOnDot, if_neg hc] at ht
      cases hrec : splitOnDot rest with
      | nil =>
        rw [hrec] at ht
        simp at ht
        subst ht
        simp [hc]
        intro hd
        exact hc hd.symm
      | cons s0 ss =>
        rw [hrec] at ht
        rcases List.mem_cons.mp ht with h | h
        · subst h
          intro hmem
          rcases List.mem_cons.mp hmem with h1 | h1
          · exact hc h1.symm
          · exact ih s0 (by rw [hrec]; exact List.mem_cons_self _ _) h1
        · exact ih t (by rw [hrec]; exact List.mem_cons_of_mem _ h)

theorem patternParts_lit_not_dot (pattern : Str) :
    ∀ l, RegexPart.lit l ∈ patternParts pattern → '.' ∉ l := by
  intro l hl
  obtain ⟨seg, hseg, heq⟩ := List.mem_map.mp hl
  have hls : l = seg := by
    by_cases h1 : seg = ['*', '*']
    · simp [segToPart, h1] at heq
    · by_cases h2 : seg = ['*']
      · simp [segToPart, h1, h2] at heq
      · simp only [segToPart, if_neg h1, if_neg h2] at heq
        injection heq with h3
        exact h3.symm
  rw [hls]
  exact splitOnDot_not_mem pattern seg hseg

theorem partMatchesB_joinDots {p : RegexPart} {segs : List Str}
    (hne : segs ≠ []) (hseg : ∀ s ∈ segs, s ≠ [] ∧ '.' ∉ s)
    (hlit : ∀ l, p = .lit l → '.' ∉ l) :
    partMatchesB p (joinDots segs) = partSegMatches p segs := by
  cases p with
  | dplus =>
    have h1 : joinDots segs ≠ [] := joinDots_ne_nil hne (fun s hs => (hseg s hs).1)
    apply bool_eq_of_iff
    simp [partMatchesB, partSegMatches, List.isEmpty_iff, h1, hne]
  | ndplus =>
    apply bool_eq_of_iff
    cases segs with
    | nil => exact absurd rfl hne
    | cons s rest =>
      cases rest with
      | nil =>
        obtain ⟨hs1, hs2⟩ := hseg s (List.mem_cons_self _ _)
        simp [partMatchesB, partSegMatches, joinDots, hs1, hs2]
      | cons t rest₂ =>
        have hd : '.' ∈ joinDots (s :: t :: rest₂) := dot_mem_joinDots
        simp [partMatchesB, partSegMatches, hd]
  | lit l =>
    apply bool_eq_of_iff
    simp only [partMatchesB, partSegMatches, decide_eq_true_eq]
    cases segs with
    | nil => exact absurd rfl hne
    | cons s rest =>
      cases rest with
      | nil =>
        show (joinDots [s] = l) ↔ (s :: [] = [l])
        rw [show joinDots [s] = s from rfl]
        constructor
        · intro h; rw [h]
        · intro h; injection h
      | cons t rest₂ =>
        have hd : '.' ∈ joinDots (s :: t :: rest₂) := dot_mem_joinDots
        constructor
        · intro h
          rw [h] at hd
          exact absurd hd (hlit l rfl)
        · intro h; injection h with h1 h2; simp at h2

theorem matchParts_joinDots : ∀ (parts : List RegexPart) {segs : List Str},
    segs ≠ [] → (∀ s ∈ segs, s ≠ [] ∧ '.' ∉ s) →
    (∀ l, RegexPart.lit l ∈ parts → '.' ∉ l) →
    matchParts parts (joinDots segs) = segMatchB parts segs := by
  intro parts
  induction parts with
  | nil =>
    intro segs hne hseg _
    have h1 : joinDots segs ≠ [] := joinDots_ne_nil hne (fun s hs => (hseg s hs).1)
    have h2 : segs ≠ [] := hne
    simp only [matchParts, segMatchB]
    apply bool_eq_of_iff
    simp [List.isEmpty_iff, h1, h2]
  | cons p ps ih =>
    intro segs hne hseg hlit
    cases ps with
    | nil =>
      exact partMatchesB_joinDots hne hseg
        (fun l hl => hlit l (hl ▸ List.mem_cons_self _ _))
    | cons q ps₂ =>
      apply bool_eq_of_iff
      simp only [matchParts, segMatchB, List.any_eq_true, Bool.and_eq_true]
      constructor
      · rintro ⟨⟨pre, post⟩, hmem, hp, hrest⟩
        have hsplit := (joinDots_eq_split (fun s hs => (hseg s hs).2) pre post).mp
          (mem_splitsAt.mp hmem)
        obtain ⟨l, r, hl, hr, hlr, hpre, hpost⟩ := hsplit
        refine ⟨(l, r), mem_segSplits.mpr ⟨hlr, hl, hr⟩, ?_, ?_⟩
        · rw [← partMatchesB_joinDots hl
            (fun s hs => hseg s (hlr ▸ List.mem_append_left _ hs))
            (fun u hu => hlit u (hu ▸ List.mem_cons_self _ _)), ← hpre]
          exact hp
        · rw [← ih hr (fun s hs => hseg s (hlr ▸ List.mem_append_right _ hs))
            (fun u hu => hlit u (List.mem_cons_of_mem _ hu)), ← hpost]
          exact hrest
      · rintro ⟨⟨l, r⟩, hmem, hp, hrest⟩
        obtain ⟨hlr, hl, hr⟩ := mem_segSplits.mp hmem
        refine ⟨(joinDots l, joinDots r), ?_, ?_, ?_⟩
        · apply mem_splitsAt.mpr
          apply (joinDots_eq_split (fun s hs => (hseg s hs).2) (joinDots l)
            (joinDots r)).mpr
          exact ⟨l, r, hl, hr, hlr, rfl, rfl⟩
        · rw [partMatchesB_joinDots hl
            (fun s hs => hseg s (hlr ▸ List.mem_append_left _ hs))
            (fun u hu => hlit u (hu ▸ List.mem_cons_self _ _))]
          exact hp
        · rw [ih hr (fun s hs => hseg s (hlr ▸ List.mem_append_right _ hs))
            (fun u hu => hlit u (List.mem_cons_of_mem _ hu))]
          exact hrest

/-- **C5.**  For every dot-segmented method path (a non-empty list of
non-empty, dot-free segments) and every glob pattern, the compiled-regex
matcher `matchPattern` of `glob.ts` agrees with the segment grammar stated
by the specification (`segMatchB`): a literal pattern segment matches only
that exact path segment, `*` matches exactly one segment, `**` matches one
or more consecutive segments, and the match is anchored to the whole
path. -/
theorem C5_pattern_grammar (pattern : Str) (segs : List Str)
    (hne : segs ≠ []) (hseg : ∀ s ∈ segs, s ≠ [] ∧ '.' ∉ s) :
    matchPattern (joinDots segs) pattern = segMatchB (patternParts pattern) segs :=
  matchParts_joinDots (patternParts pattern) hne hseg (patternParts_lit_not_dot pattern)

/-- Witness for C5 at the specification's concrete examples: `files.*`
matches `files.create` but not `chat.completions.create`, and `**.create`
matches `chat.completions.create` but not `files.delete`. -/
theorem C5_pattern_grammar_witness :
    (matchPattern (joinDots [litStr "files", litStr "create"])
      (litStr "files.*") = true) ∧
    (matchPattern (joinDots [litStr "chat", litStr "completions", litStr "create"])
      (litStr "files.*") = false) ∧
    (matchPattern (joinDots [litStr "chat", litStr "completions", litStr "create"])
      (litStr "**.create") = true) ∧
    (matchPattern (joinDots [litStr "files", litStr "delete"])
      (litStr "**.create") = false) :=
  ⟨(C5_pattern_grammar (litStr "files.*") [litStr "files", litStr "create"]
      (by decide) (by decide)).trans (by decide),
   (C5_pattern_grammar (litStr "files.*")
      [litStr "chat", litStr "completions", litStr "create"]
      (by decide) (by decide)).trans (by decide),
   (C5_pattern_grammar (litStr "**.create")
      [litStr "chat", litStr "completions", litStr "create"]
      (by decide) (by decide)).trans (by decide),
   (C5_pattern_grammar (litStr "**.create") [litStr "files", litStr "delete"]
      (by decide) (by decide)).trans (by decide)⟩

/-! ## Token-bucket rate limiter (`src/rate-limiter.ts`)

JavaScript numbers holding tokens and rates are modelled as rationals;
timestamps (`Date.now()`) as integers (milliseconds) passed explicitly.
The `Infinity` rate that `getRequestsPerSecond` returns when no rate is
configured is modelled by the dedicated `Bucket.unlimited` constructor
(an infinite bucket: refilling it and consuming one token leave it
unchanged, and its token count always passes the `tokens >= 1` test). -/

/-- `RateLimitConfig`.  `Option` models absent properties.  The unused
`requests`/`per`/`strategy` fields of the TypeScript interface are never
read by the implementation and are omitted. -/
structure RateLimitConfig where
  requestsPerSecond : Option ℚ := none
  requestsPerMinute : Option ℚ := none
  concurrency : Option ℕ := none
deriving DecidableEq

/-- The limiter's configuration: one flat config for all paths, or a
`{default, perMethod}` table (`PerMethodRateLimitConfig`,
discriminated by `isPerMethodConfig`). -/
inductive RLConfig where
  | flat (c : RateLimitConfig)
  | perMethod (dflt : Option RateLimitConfig) (table : List (Str × RateLimitConfig))
deriving DecidableEq

/-- Lookup in an association list keyed by method path (a JavaScript
`Map.get` / object-index). -/
def lookupStr {α : Type} : List (Str × α) → Str → Option α
  | [], _ => none
  | (k, v) :: rest, key => if k = key then some v else lookupStr rest key

/-- `Map.set` / object-index assignment: replace or append. -/
def setStr {α : Type} : List (Str × α) → Str → α → List (Str × α)
  | [], key, v => [(key, v)]
  | (k, w) :: rest, key, v =>
    if k = key then (k, v) :: rest else (k, w) :: setStr rest key v

/-- `getConfigForMethod`: `perMethod[methodPath] ?? default` for per-method
configs, the config itself when flat. -/
def getConfigForMethod : RLConfig → Str → Option RateLimitConfig
  | .flat c, _ => some c
  | .perMethod dflt table, methodPath =>
    match lookupStr table methodPath with
    | some c => some c
    | none => dflt

/-- JavaScript truthiness on an optional number: `0` (and absence) is
falsy. -/
def truthyQ (q : Option ℚ) : Option ℚ :=
  match q with
  | some v => if v = 0 then none else some v
  | none => none

/-- `getRequestsPerSecond`; `none` is the `Infinity` result. -/
def getRequestsPerSecond (config : RateLimitConfig) : Option ℚ :=
  match truthyQ config.requestsPerSecond with
  | some rps => some rps
  | none =>
    match truthyQ config.requestsPerMinute with
    | some rpm => some (rpm / 60)
    | none => none

/-- `TokenBucket` with a finite rate. -/
structure TokenBucket where
  tokens : ℚ
  lastRefill : ℤ
  tokensPerMs : ℚ
  maxTokens : ℚ
deriving DecidableEq

/-- A bucket as stored by the limiter; `unlimited` is the infinite bucket
produced by an `Infinity` rate. -/
inductive Bucket where
  | unlimited
  | limited (b : TokenBucket)
deriving DecidableEq

/-- `createBucket`: capacity `max(1, ceil(rps))`, buckets start full;
`now` models `Date.now()`. -/
def createBucket (config : RateLimitConfig) (now : ℤ) : Bucket :=
  match getRequestsPerSecond config with
  | none => .unlimited
  | some rps =>
    .limited
      { tokens := ((max 1 ⌈rps⌉ : ℤ) : ℚ)
        lastRefill := now
        tokensPerMs := rps / 1000
        maxTokens := ((max 1 ⌈rps⌉ : ℤ) : ℚ) }

/-- `refillBucket`:
`tokens = min(maxTokens, tokens + elapsed * tokensPerMs)`, then
`lastRefill = now`. -/
def refillBucket (b : TokenBucket) (now : ℤ) : TokenBucket :=
  { b with
    tokens := min b.maxTokens (b.tokens + ((now - b.lastRefill : ℤ) : ℚ) * b.tokensPerMs)
    lastRefill := now }

/-- `refillBucket` lifted to stored buckets (refilling the infinite bucket
changes nothing: `min(Infinity, Infinity + e*Infinity) = Infinity`). -/
def refillB : Bucket → ℤ → Bucket
  | .unlimited, _ => .unlimited
  | .limited b, now => .limited (refillBucket b now)

/-- `RateLimiterState`: lazily-populated bucket map, in-flight counters and
the configuration. -/
structure RateLimiterState where
  buckets : List (Str × Bucket)
  concurrentCount : List (Str × ℕ)
  config : RLConfig
deriving DecidableEq

/-- `createRateLimiter`. -/
def createRateLimiter (config : RLConfig) : RateLimiterState :=
  { buckets := [], concurrentCount := [], config := config }

/-- `incrementConcurrent`. -/
def incrementConcurrent (state : RateLimiterState) (methodPath : Str) :
    RateLimiterState :=
  { state with
    concurrentCount :=
      setStr state.concurrentCount methodPath
        ((lookupStr state.concurrentCount methodPath).getD 0 + 1) }

/-- `decrementConcurrent`; `Math.max(0, current - 1)` is truncated
subtraction on `ℕ`. -/
def decrementConcurrent (state : RateLimiterState) (methodPath : Str) :
    RateLimiterState :=
  { state with
    concurrentCount :=
      setStr state.concurrentCount methodPath
        ((lookupStr state.concurrentCount methodPath).getD 0 - 1) }

/-- `getBucket`: when the method has no config the source returns a fresh
`createBucket({requestsPerSecond: Infinity})` (our `unlimited`) without
storing it; otherwise the stored bucket, creating and storing one on first
use.  Returns the bucket together with the (possibly extended) map. -/
def getBucket (state : RateLimiterState) (methodPath : Str) (now : ℤ) :
    Bucket × List (Str × Bucket) :=
  match getConfigForMethod state.config methodPath with
  | none => (.unlimited, state.buckets)
  | some methodConfig =>
    match lookupStr state.buckets methodPath with
    | some b => (b, state.buckets)
    | none =>
      let b := createBucket methodConfig now
      (b, setStr state.buckets methodPath b)

/-- Result of one acquisition attempt. -/
structure AcquireResult where
  canProceed : Bool
  delayMs : ℤ
deriving DecidableEq

/-- `tryAcquire`.  (a) If a concurrency cap is configured (JS truthiness: a
cap of `0` is falsy and skips the check) and the in-flight count is at or
above it, deny with a fixed 50 ms delay before touching any bucket.
(b) Otherwise refill the (lazily created) bucket; if `tokens >= 1`,
consume one token, increment the in-flight counter and admit.
(c) Otherwise deny with `ceil((1 - tokens) / tokensPerMs)`.
The source mutates the stored bucket object in place; we model this by
writing the updated bucket back to the map (a fresh bucket for a
config-less path is never stored, and the infinite bucket is unchanged by
refill and consume).

`capBlockedB` is the source's guard
`methodConfig?.concurrency && current >= methodConfig.concurrency`. -/
def capBlockedB (state : RateLimiterState) (methodPath : Str) : Bool :=
  match getConfigForMethod state.config methodPath with
  | some mc =>
    match mc.concurrency with
    | some cap =>
      if cap ≠ 0 then
        decide (cap ≤ (lookupStr state.concurrentCount methodPath).getD 0)
      else false
    | none => false
  | none => false

/-- `tryAcquire`; see the comment on `capBlockedB` above. -/
def tryAcquire (state : RateLimiterState) (methodPath : Str) (now : ℤ) :
    AcquireResult × RateLimiterState :=
  if capBlockedB state methodPath then
    ({ canProceed := false, delayMs := 50 }, state)
  else
    let pr := getBucket state methodPath now
    match refillB pr.1 now with
    | .unlimited =>
      ({ canProceed := true, delayMs := 0 },
        incrementConcurrent { state with buckets := pr.2 } methodPath)
    | .limited b =>
      if 1 ≤ b.tokens then
        ({ canProceed := true, delayMs := 0 },
          incrementConcurrent
            { state with
              buckets :=
                setStr pr.2 methodPath (.limited { b with tokens := b.tokens - 1 }) }
            methodPath)
      else
        ({ canProceed := false, delayMs := ⌈(1 - b.tokens) / b.tokensPerMs⌉ },
          { state with buckets := setStr pr.2 methodPath (.limited b) })

/-! ### Association-list lemmas -/

theorem lookupStr_mem {α : Type} : ∀ {m : List (Str × α)} {k : Str} {v : α},
    lookupStr m k = some v → (k, v) ∈ m := by
  intro m
  induction m with
  | nil => intro k v h; simp [lookupStr] at h
  | cons kv rest ih =>
    intro k v h
    obtain ⟨k2, w⟩ := kv
    by_cases hk : k2 = k
    · subst hk
      simp [lookupStr] at h
      simp [h]
    · simp only [lookupStr, if_neg hk] at h
      exact List.mem_cons_of_mem _ (ih h)

theorem lookupStr_setStr_self {α : Type} : ∀ (m : List (Str × α)) (k : Str) (v : α),
    lookupStr (setStr m k v) k = some v := by
  intro m
  induction m with
  | nil => intro k v; simp [setStr, lookupStr]
  | cons kv rest ih =>
    intro k v
    obtain ⟨k2, w⟩ := kv
    by_cases hk : k2 = k
    · simp [setStr, lookupStr, hk]
    · simp [setStr, lookupStr, hk, ih]

theorem mem_setStr {α : Type} : ∀ {m : List (Str × α)} {k q : Str} {v b : α},
    (q, b) ∈ setStr m k v → (q = k ∧ b = v) ∨ (q, b) ∈ m := by
  intro m
  induction m with
  | nil =>
    intro k q v b h
    simp [setStr] at h
    exact Or.inl h
  | cons kv rest ih =>
    intro k q v b h
    obtain ⟨k2, w⟩ := kv
    by_cases hk : k2 = k
    · subst hk
      have hs : setStr ((k2, w) :: rest) k2 v = (k2, v) :: rest := by
        simp [setStr]
      rw [hs] at h
      rcases List.mem_cons.mp h with h | h
      · rw [Prod.mk.injEq] at h
        exact Or.inl h
      · exact Or.inr (List.mem_cons_of_mem _ h)
    · have hs : setStr ((k2, w) :: rest) k v = (k2, w) :: setStr rest k v := by
        simp [setStr, hk]
      rw [hs] at h
      rcases List.mem_cons.mp h with h | h
      · exact Or.inr (List.mem_cons.mpr (Or.inl h))
      · rcases ih h with h2 | h2
        · exact Or.inl h2
        · exact Or.inr (List.mem_cons_of_mem _ h2)

/-! ### C7: the acquisition trichotomy -/

/-- The bucket this attempt works with, after the lazy refill. -/
def refilledBucketAt (state : RateLimiterState) (methodPath : Str) (now : ℤ) : Bucket :=
  refillB (getBucket state methodPath now).1 now

/-- Claim-side reading of "a concurrency cap is configured and the path's
in-flight count is at or above the cap" (a cap of `0` is falsy in the
source's guard, hence not "configured"). -/
def capConfiguredBlocked (state : RateLimiterState) (methodPath : Str) : Prop :=
  ∃ mc cap, getConfigForMethod state.config methodPath = some mc ∧
    mc.concurrency = some cap ∧ cap ≠ 0 ∧
    cap ≤ (lookupStr state.concurrentCount methodPath).getD 0

theorem capBlockedB_iff {state : RateLimiterState} {methodPath : Str} :
    capBlockedB state methodPath = true ↔ capConfiguredBlocked state methodPath := by
  unfold capBlockedB capConfiguredBlocked
  cases hmc : getConfigForMethod state.config methodPath with
  | none => simp [hmc]
  | some mc =>
    cases hcc : mc.concurrency with
    | none => simp [hcc]
    | some cap =>
      by_cases h0 : cap = 0
      · subst h0
        simp [hcc]
      · simp [hcc, h0]

/-- **C7.**  Acquisition algorithm of `tryAcquire`, per attempt:
(a) if a concurrency cap is configured and the path's in-flight count is at
or above it, the attempt is denied with a fixed 50 ms delay and the state is
unchanged (no token consumed, no counter change); otherwise the bucket is
refilled to `min(maxTokens, tokens + elapsedMs * tokensPerMs)` and
(b) if `tokens ≥ 1` (always true for the infinite bucket of an unlimited
rate) one token is consumed, the in-flight counter is incremented, and the
attempt is admitted with zero delay; (c) otherwise the attempt is denied
with delay `ceil((1 - tokens) / tokensPerMs)`, the counter unchanged and
no token consumed. -/
theorem C7_acquire_trichotomy (state : RateLimiterState) (methodPath : Str) (now : ℤ) :
    (capConfiguredBlocked state methodPath →
      tryAcquire state methodPath now =
        ({ canProceed := false, delayMs := 50 }, state)) ∧
    (¬capConfiguredBlocked state methodPath →
      (∀ b0, (getBucket state methodPath now).1 = .limited b0 →
        refilledBucketAt state methodPath now =
          .limited
            { b0 with
              tokens := min b0.maxTokens
                (b0.tokens + ((now - b0.lastRefill : ℤ) : ℚ) * b0.tokensPerMs)
              lastRefill := now }) ∧
      (refilledBucketAt state methodPath now = .unlimited →
        (tryAcquire state methodPath now).1 = { canProceed := true, delayMs := 0 } ∧
        (tryAcquire state methodPath now).2.concurrentCount =
          setStr state.concurrentCount methodPath
            ((lookupStr state.concurrentCount methodPath).getD 0 + 1)) ∧
      (∀ b, refilledBucketAt state methodPath now = .limited b →
        (1 ≤ b.tokens →
          (tryAcquire state methodPath now).1 = { canProceed := true, delayMs := 0 } ∧
          (tryAcquire state methodPath now).2.concurrentCount =
            setStr state.concurrentCount methodPath
              ((lookupStr state.concurrentCount methodPath).getD 0 + 1) ∧
          lookupStr (tryAcquire state methodPath now).2.buckets methodPath =
            some (.limited { b with tokens := b.tokens - 1 })) ∧
        (b.tokens < 1 →
          (tryAcquire state methodPath now).1 =
            { canProceed := false, delayMs := ⌈(1 - b.tokens) / b.tokensPerMs⌉ } ∧
          (tryAcquire state methodPath now).2.concurrentCount =
            state.concurrentCount ∧
          lookupStr (tryAcquire state methodPath now).2.buckets methodPath =
            some (.limited b)))) := by
  constructor
  · intro hcap
    have hb : capBlockedB state methodPath = true := capBlockedB_iff.mpr hcap
    simp [tryAcquire, hb]
  · intro hcap
    have hb : capBlockedB state methodPath = false := by
      cases hcb : capBlockedB state methodPath with
      | false => rfl
      | true => exact absurd (capBlockedB_iff.mp hcb) hcap
    refine ⟨?_, ?_, ?_⟩
    · intro b0 hb0
      unfold refilledBucketAt
      rw [hb0]
      rfl
    · intro hru
      unfold refilledBucketAt at hru
      constructor
      · simp [tryAcquire, hb, hru]
      · simp [tryAcquire, hb, hru, incrementConcurrent]
    · intro b hrb
      unfold refilledBucketAt at hrb
      constructor
      · intro hge
        refine ⟨?_, ?_, ?_⟩
        · simp [tryAcquire, hb, hrb, hge]
        · simp [tryAcquire, hb, hrb, hge, incrementConcurrent]
        · simp [tryAcquire, hb, hrb, hge, incrementConcurrent, lookupStr_setStr_self]
      · intro hlt
        have hnge : ¬(1 ≤ b.tokens) := not_le.mpr hlt
        refine ⟨?_, ?_, ?_⟩
        · simp [tryAcquire, hb, hrb, hnge]
        · simp [tryAcquire, hb, hrb, hnge]
        · simp [tryAcquire, hb, hrb, hnge, lookupStr_setStr_self]

/-- Witness for C7: on a fresh limiter with an (unlimited-rate) flat config
and no concurrency cap, the first attempt is admitted with zero delay. -/
theorem C7_acquire_trichotomy_witness :
    (tryAcquire (createRateLimiter (.flat {})) (litStr "fast") 0).1 =
      { canProceed := true, delayMs := 0 } := by
  have h := C7_acquire_trichotomy (createRateLimiter (.flat {})) (litStr "fast") 0
  have hnc : ¬capConfiguredBlocked (createRateLimiter (.flat {})) (litStr "fast") := by
    intro hc
    exact absurd (capBlockedB_iff.mpr hc) (by decide)
  exact ((h.2 hnc).2.1 rfl).1

/-! ### C8: the bucket invariant -/

/-- JavaScript truthiness-aware nonnegativity of an optional rate. -/
def optNonnegB (q : Option ℚ) : Bool :=
  match q with
  | some v => decide (0 ≤ v)
  | none => true

/-- All rates in a `RateLimitConfig` are nonnegative. -/
def configNonnegB (c : RateLimitConfig) : Bool :=
  optNonnegB c.requestsPerSecond && optNonnegB c.requestsPerMinute

/-- All rates anywhere in the limiter's configuration are nonnegative. -/
def rlConfigNonnegB : RLConfig → Bool
  | .flat c => configNonnegB c
  | .perMethod dflt table =>
    (match dflt with
     | some c => configNonnegB c
     | none => true) &&
      table.all fun pc => configNonnegB pc.2

/-- The claim's invariant on a stored bucket, strengthened with the facts
needed to preserve it (nonnegative rate, capacity at least one); the
infinite bucket trivially satisfies its own version
(`Infinity ≥ tokens ≥ 0`). -/
def bucketWF : Bucket → Prop
  | .unlimited => True
  | .limited b => 0 ≤ b.tokens ∧ b.tokens ≤ b.maxTokens ∧ 0 ≤ b.tokensPerMs ∧ 1 ≤ b.maxTokens

/-- The bucket's refill timestamp is not in the future. -/
def bucketTimeLE : Bucket → ℤ → Prop
  | .unlimited, _ => True
  | .limited b, now => b.lastRefill ≤ now

/-- Every stored bucket is well-formed with its timestamp at most `now`. -/
def limiterWFAt (state : RateLimiterState) (now : ℤ) : Prop :=
  ∀ p b, (p, b) ∈ state.buckets → bucketWF b ∧ bucketTimeLE b now

theorem getConfigForMethod_nonneg {config : RLConfig}
    (h : rlConfigNonnegB config = true) {p : Str} {c : RateLimitConfig}
    (hc : getConfigForMethod config p = some c) : configNonnegB c = true := by
  cases config with
  | flat c2 =>
    simp [getConfigForMethod] at hc
    rw [← hc]
    simpa [rlConfigNonnegB] using h
  | perMethod dflt table =>
    simp only [rlConfigNonnegB, Bool.and_eq_true, List.all_eq_true] at h
    simp only [getConfigForMethod] at hc
    cases hl : lookupStr table p with
    | some c2 =>
      rw [hl] at hc
      injection hc with hc2
      rw [← hc2]
      exact h.2 _ (lookupStr_mem hl)
    | none =>
      rw [hl] at hc
      cases dflt with
      | none => simp at hc
      | some c3 =>
        injection hc with hc2
        rw [← hc2]
        simpa using h.1

theorem truthyQ_nonneg {q : Option ℚ} (h : optNonnegB q = true) {v : ℚ}
    (ht : truthyQ q = some v) : 0 ≤ v := by
  cases q with
  | none => simp [truthyQ] at ht
  | some w =>
    by_cases h0 : w = 0
    · simp [truthyQ, h0] at ht
    · simp only [truthyQ, if_neg h0] at ht
      injection ht with ht2
      subst ht2
      simpa [optNonnegB] using h

theorem getRequestsPerSecond_nonneg {c : RateLimitConfig}
    (h : configNonnegB c = true) {rps : ℚ}
    (hr : getRequestsPerSecond c = some rps) : 0 ≤ rps := by
  simp only [configNonnegB, Bool.and_eq_true] at h
  obtain ⟨h1, h2⟩ := h
  unfold getRequestsPerSecond at hr
  cases hs : truthyQ c.requestsPerSecond with
  | some v =>
    rw [hs] at hr
    injection hr with hr2
    subst hr2
    exact truthyQ_nonneg h1 hs
  | none =>
    rw [hs] at hr
    cases ht : truthyQ c.requestsPerMinute with
    | none => rw [ht] at hr; simp at hr
    | some rpm =>
      rw [ht] at hr
      injection hr with hr2
      subst hr2
      exact div_nonneg (truthyQ_nonneg h2 ht) (by norm_num)

theorem createBucket_wf {c : RateLimitConfig} (h : configNonnegB c = true) (now : ℤ) :
    bucketWF (createBucket c now) ∧ bucketTimeLE (createBucket c now) now := by
  unfold createBucket
  cases hr : getRequestsPerSecond c with
  | none => exact ⟨trivial, trivial⟩
  | some rps =>
    have hrps : 0 ≤ rps := getRequestsPerSecond_nonneg h hr
    have hmax : (1 : ℚ) ≤ ((max 1 ⌈rps⌉ : ℤ) : ℚ) := by
      have : (1 : ℤ) ≤ max 1 ⌈rps⌉ := le_max_left _ _
      exact_mod_cast this
    refine ⟨⟨?_, le_refl _, ?_, hmax⟩, le_refl now⟩
    · linarith
    · positivity

theorem refillBucket_wf {b : TokenBucket} (hw : bucketWF (.limited b)) {now : ℤ}
    (ht : b.lastRefill ≤ now) :
    bucketWF (.limited (refillBucket b now)) ∧
      bucketTimeLE (.limited (refillBucket b now)) now := by
  obtain ⟨h0, h1, h2, h3⟩ := hw
  have helapsed : (0 : ℚ) ≤ ((now - b.lastRefill : ℤ) : ℚ) := by
    have : (0 : ℤ) ≤ now - b.lastRefill := by linarith
    exact_mod_cast this
  refine ⟨⟨?_, ?_, h2, h3⟩, le_refl now⟩
  · apply le_min
    · linarith
    · have : (0 : ℚ) ≤ ((now - b.lastRefill : ℤ) : ℚ) * b.tokensPerMs :=
        mul_nonneg helapsed h2
      linarith
  · exact min_le_left _ _

theorem limiterWFAt_mono {state : RateLimiterState} {t t2 : ℤ} (h : t ≤ t2)
    (hwf : limiterWFAt state t) : limiterWFAt state t2 := by
  intro p b hb
  obtain ⟨h1, h2⟩ := hwf p b hb
  refine ⟨h1, ?_⟩
  cases b with
  | unlimited => trivial
  | limited tb => exact le_trans h2 h

theorem tryAcquire_preserves {state : RateLimiterState}
    (hcfg : rlConfigNonnegB state.config = true)
    {now : ℤ} (hwf : limiterWFAt state now) (p : Str) :
    limiterWFAt (tryAcquire state p now).2 now ∧
      (tryAcquire state p now).2.config = state.config := by
  refine ⟨?_, ?_⟩
  · unfold tryAcquire
    by_cases hcap : capBlockedB state p = true
    · simp [hcap]
      exact hwf
    · rw [Bool.not_eq_true] at hcap
      simp only [hcap, Bool.false_eq_true, if_false]
      cases hmc : getConfigForMethod state.config p with
      | none =>
        have hgb : getBucket state p now = (.unlimited, state.buckets) := by
          unfold getBucket
          rw [hmc]
        simp only [hgb, refillB]
        intro q b hb
        exact hwf q b hb
      | some mc =>
        have hcn : configNonnegB mc = true := getConfigForMethod_nonneg hcfg hmc
        cases hlk : lookupStr state.buckets p with
        | some b0 =>
          have hgb : getBucket state p now = (b0, state.buckets) := by
            unfold getBucket
            rw [hmc, hlk]
          obtain ⟨hb0w, hb0t⟩ := hwf p b0 (lookupStr_mem hlk)
          simp only [hgb]
          cases b0 with
          | unlimited =>
            simp only [refillB]
            intro q b hb
            exact hwf q b hb
          | limited tb =>
            simp only [refillB]
            obtain ⟨hrw, hrt⟩ := refillBucket_wf hb0w hb0t
            by_cases hge : 1 ≤ (refillBucket tb now).tokens
            · simp only [if_pos hge]
              intro q b hb
              rcases mem_setStr hb with ⟨-, hbv⟩ | hb2
              · subst hbv
                obtain ⟨w0, w1, w2, w3⟩ := hrw
                have hw0 : (0 : ℚ) ≤ (refillBucket tb now).tokens - 1 := by linarith
                have hw1 : (refillBucket tb now).tokens - 1 ≤
                    (refillBucket tb now).maxTokens := by linarith
                exact ⟨⟨hw0, hw1, w2, w3⟩, hrt⟩
              · exact hwf q b hb2
            · simp only [if_neg hge]
              intro q b hb
              rcases mem_setStr hb with ⟨-, hbv⟩ | hb2
              · subst hbv
                exact ⟨hrw, hrt⟩
              · exact hwf q b hb2
        | none =>
          have hgb : getBucket state p now =
              (createBucket mc now, setStr state.buckets p (createBucket mc now)) := by
            unfold getBucket
            rw [hmc, hlk]
          obtain ⟨hcw, hct⟩ := createBucket_wf hcn now
          simp only [hgb]
          cases hcb : createBucket mc now with
          | unlimited =>
            simp only [refillB]
            intro q b hb
            rcases mem_setStr hb with ⟨-, hbv⟩ | hb2
            · subst hbv
              rw [hcb] at hcw hct
              exact ⟨hcw, hct⟩
            · exact hwf q b hb2
          | limited tb =>
            rw [hcb] at hcw hct
            simp only [refillB]
            obtain ⟨hrw, hrt⟩ := refillBucket_wf hcw hct
            by_cases hge : 1 ≤ (refillBucket tb now).tokens
            · simp only [if_pos hge]
              intro q b hb
              rcases mem_setStr hb with ⟨-, hbv⟩ | hb2
              · subst hbv
                obtain ⟨w0, w1, w2, w3⟩ := hrw
                have hw0 : (0 : ℚ) ≤ (refillBucket tb now).tokens - 1 := by linarith
                have hw1 : (refillBucket tb now).tokens - 1 ≤
                    (refillBucket tb now).maxTokens := by linarith
                exact ⟨⟨hw0, hw1, w2, w3⟩, hrt⟩
              · rcases mem_setStr hb2 with ⟨-, hbv⟩ | hb3
                · subst hbv
                  exact ⟨hcw, hct⟩
                · exact hwf q b hb3
            · simp only [if_neg hge]
              intro q b hb
              rcases mem_setStr hb with ⟨-, hbv⟩ | hb2
              · subst hbv
                exact ⟨hrw, hrt⟩
              · rcases mem_setStr hb2 with ⟨-, hbv⟩ | hb3
                · subst hbv
                  exact ⟨hcw, hct⟩
                · exact hwf q b hb3
  · unfold tryAcquire
    by_cases hcap : capBlockedB state p = true
    · simp [hcap]
    · rw [Bool.not_eq_true] at hcap
      simp only [hcap, Bool.false_eq_true, if_false]
      cases refillB (getBucket state p now).1 now with
      | unlimited => simp [incrementConcurrent]
      | limited b =>
        by_cases hge : 1 ≤ b.tokens
        · simp [if_pos hge, incrementConcurrent]
        · simp [if_neg hge]

/-- A sequence of acquisition attempts: fold `tryAcquire` over
(path, timestamp) pairs, keeping the resulting limiter state. -/
def runAcquires (state : RateLimiterState) : List (Str × ℤ) → RateLimiterState
  | [] => state
  | (p, t) :: rest => runAcquires (tryAcquire state p t).2 rest

theorem runAcquires_wf : ∀ (attempts : List (Str × ℤ)) (state : RateLimiterState) (t : ℤ),
    rlConfigNonnegB state.config = true → limiterWFAt state t →
    List.Chain' (· ≤ ·) (t :: attempts.map Prod.snd) →
    ∀ p b, (p, b) ∈ (runAcquires state attempts).buckets → bucketWF b := by
  intro attempts
  induction attempts with
  | nil =>
    intro state t _ hwf _ p b hb
    exact (hwf p b hb).1
  | cons a rest ih =>
    intro state t hcfg hwf hchain p b hb
    obtain ⟨q, tt⟩ := a
    have hle : t ≤ tt := (List.chain'_cons.mp (by simpa using hchain)).1
    have hchain2 : List.Chain' (· ≤ ·) (tt :: rest.map Prod.snd) :=
      (List.chain'_cons.mp (by simpa using hchain)).2
    have hwf2 := limiterWFAt_mono hle hwf
    obtain ⟨hwf3, hcfg3⟩ := tryAcquire_preserves hcfg hwf2 q
    exact ih (tryAcquire state q tt).2 tt (by rw [hcfg3]; exact hcfg) hwf3 hchain2 p b hb

/-- **C8.**  For every token bucket and every sequence of acquisition
attempts (with nonnegative configured rates and timestamps that do not run
backwards — `Date.now()` is monotone), every bucket stored by the limiter
satisfies `0 ≤ tokens ≤ maxTokens`.  Since the attempt sequence is
arbitrary and every prefix of a monotone sequence is monotone, this covers
the state after creation and after every refill and consume step. -/
theorem C8_bucket_invariant (config : RLConfig) (attempts : List (Str × ℤ)) (t0 : ℤ)
    (hcfg : rlConfigNonnegB config = true)
    (hts : List.Chain' (· ≤ ·) (t0 :: attempts.map Prod.snd)) :
    ∀ p tb, (p, .limited tb) ∈ (runAcquires (createRateLimiter config) attempts).buckets →
      0 ≤ tb.tokens ∧ tb.tokens ≤ tb.maxTokens := by
  intro p tb hb
  have h := runAcquires_wf attempts (createRateLimiter config) t0 hcfg
    (fun q b hqb => absurd hqb (List.not_mem_nil _)) hts p (.limited tb) hb
  exact ⟨h.1, h.2.1⟩

/-- Witness for C8: one attempt against a 1-request-per-second limiter
consumes the single token, leaving `tokens = 0` within `[0, maxTokens]`. -/
theorem C8_bucket_invariant_witness :
    (0 : ℚ) ≤ 0 ∧ (0 : ℚ) ≤ 1 := by
  have hmem : (litStr "fast", Bucket.limited (TokenBucket.mk 0 0 (1/1000) 1)) ∈
      (runAcquires (createRateLimiter (.flat { requestsPerSecond := some 1 }))
        [(litStr "fast", 0)]).buckets := by
    norm_num [runAcquires, tryAcquire, capBlockedB, getConfigForMethod, getBucket,
      lookupStr, createBucket, getRequestsPerSecond, truthyQ, createRateLimiter,
      refillB, refillBucket, incrementConcurrent, setStr]
  exact C8_bucket_invariant (.flat { requestsPerSecond := some 1 })
    [(litStr "fast", 0)] 0 (by decide) (by simp)
    (litStr "fast") (TokenBucket.mk 0 0 (1/1000) 1) hmem

/-! ## Priority queue (`src/queue.ts`)

The executor closure and the pending-promise resolve/reject handles of a
`QueuedRequest` are opaque to the queue's scheduling logic; they are
modelled as a payload of an arbitrary type `π`.  "Begin executing" a
request is modelled by returning the dispatched request; the recursive
`processNext` call in the task's `.finally` handler runs only when that
task later settles, which is a separate trigger (`settleStep`). -/

/-- Request priorities. -/
inductive Priority where
  | critical
  | high
  | normal
  | low
deriving DecidableEq

/-- `PRIORITY_ORDER`: rank, highest priority first. -/
def PRIORITY_ORDER : Priority → ℕ
  | .critical => 0
  | .high => 1
  | .normal => 2
  | .low => 3

/-- `QueueConfig`. -/
structure QueueConfig where
  concurrency : Option ℕ := none
  timeout : Option ℕ := none
  maxSize : Option ℕ := none
deriving DecidableEq

/-- A queued request (executor and promise handles abstracted into
`payload`). -/
structure QueuedRequest (π : Type) where
  id : ℕ
  priority : Priority
  methodPath : Str
  payload : π
deriving DecidableEq

/-- `QueueState` (the optional `onQueueChange` callback is never set by
the wrapper and is omitted). -/
structure QueueState (π : Type) where
  queue : List (QueuedRequest π)
  running : ℕ
  paused : Bool
  nextId : ℕ
  config : QueueConfig
deriving DecidableEq

/-- `createQueue`. -/
def createQueue (π : Type) (config : QueueConfig) : QueueState π :=
  { queue := [], running := 0, paused := false, nextId := 0, config := config }

/-- `sortByPriority` as an at-most test: the comparator sorts ascending by
priority rank, breaking ties by arrival id; ids of queued requests are
distinct, so this key order determines the sorted result uniquely. -/
def sortLE {π : Type} (a b : QueuedRequest π) : Bool :=
  decide (PRIORITY_ORDER a.priority < PRIORITY_ORDER b.priority ∨
    (PRIORITY_ORDER a.priority = PRIORITY_ORDER b.priority ∧ a.id ≤ b.id))

/-- Insert into a sorted list (auxiliary for `sortQueue`). -/
def insertSorted {π : Type} (r : QueuedRequest π) :
    List (QueuedRequest π) → List (QueuedRequest π)
  | [] => [r]
  | x :: xs => if sortLE r x then r :: x :: xs else x :: insertSorted r xs

/-- `state.queue.sort(sortByPriority)` (insertion sort; the comparator is a
total order on distinct ids, so any comparison sort agrees). -/
def sortQueue {π : Type} : List (QueuedRequest π) → List (QueuedRequest π)
  | [] => []
  | x :: xs => insertSorted x (sortQueue xs)

/-- `canProcessNext`.  `state.config.concurrency ?? Infinity` is nullish
coalescing: a configured `0` stays `0` (and then nothing is ever
admitted). -/
def canProcessNext {π : Type} (state : QueueState π) : Bool :=
  if state.paused then false
  else
    match state.config.concurrency with
    | some c => if c ≤ state.running then false else !state.queue.isEmpty
    | none => !state.queue.isEmpty

/-- `processNext`: one trigger of the admission loop.  A single call admits
at most one request: it re-sorts the queue, removes the head, increments
`running` and begins executing it (the returned request). -/
def processNext {π : Type} (state : QueueState π) :
    QueueState π × Option (QueuedRequest π) :=
  if canProcessNext state then
    match sortQueue state.queue with
    | [] => (state, none)
    | r :: rest =>
      ({ state with queue := rest, running := state.running + 1 }, some r)
  else (state, none)

/-- Result of `enqueue`: the synchronous `Queue is full` rejection, or
success together with the request dispatched by the triggered admission
loop (if any). -/
inductive EnqueueResult (π : Type) where
  | rejectedFull
  | enqueued (dispatched : Option (QueuedRequest π))
deriving DecidableEq

/-- `enqueue`: reject with `Queue is full` when
`state.queue.length >= (maxSize ?? Infinity)` — before the request object
is created, so no id is consumed; otherwise create the request with the
next id, push it, and trigger the admission loop. -/
def enqueue {π : Type} (state : QueueState π) (methodPath : Str)
    (priority : Priority) (payload : π) : QueueState π × EnqueueResult π :=
  let withinSize : Bool :=
    match state.config.maxSize with
    | some m => decide (state.queue.length < m)
    | none => true
  if withinSize then
    let request : QueuedRequest π :=
      { id := state.nextId, priority := priority, methodPath := methodPath,
        payload := payload }
    let st2 :=
      { state with queue := state.queue ++ [request], nextId := state.nextId + 1 }
    let pr := processNext st2
    (pr.1, .enqueued pr.2)
  else (state, .rejectedFull)

/-- `pauseQueue`. -/
def pauseQueue {π : Type} (state : QueueState π) : QueueState π :=
  { state with paused := true }

/-- `resumeQueue`: unpause and trigger the admission loop. -/
def resumeQueue {π : Type} (state : QueueState π) :
    QueueState π × Option (QueuedRequest π) :=
  processNext { state with paused := false }

/-- `clearQueue`: remove every queued request (each is rejected with
`Queue cleared`); running tasks are untouched. -/
def clearQueue {π : Type} (state : QueueState π) :
    QueueState π × List (QueuedRequest π) :=
  ({ state with queue := [] }, state.queue)

/-- A task settle: the `.finally` handler decrements `running` and
re-triggers the admission loop. -/
def settleStep {π : Type} (state : QueueState π) :
    QueueState π × Option (QueuedRequest π) :=
  processNext { state with running := state.running - 1 }

/-! ### C3: the admission loop admits one request per trigger -/

theorem sortLE_total {π : Type} (a b : QueuedRequest π) :
    sortLE a b = true ∨ sortLE b a = true := by
  unfold sortLE
  rcases lt_trichotomy (PRIORITY_ORDER a.priority) (PRIORITY_ORDER b.priority)
    with h | h | h
  · exact Or.inl (decide_eq_true (Or.inl h))
  · rcases le_total a.id b.id with h2 | h2
    · exact Or.inl (decide_eq_true (Or.inr ⟨h, h2⟩))
    · exact Or.inr (decide_eq_true (Or.inr ⟨h.symm, h2⟩))
  · exact Or.inr (decide_eq_true (Or.inl h))

theorem sortLE_trans {π : Type} {a b c : QueuedRequest π}
    (h1 : sortLE a b = true) (h2 : sortLE b c = true) : sortLE a c = true := by
  unfold sortLE at h1 h2 ⊢
  have h1b := of_decide_eq_true h1
  have h2b := of_decide_eq_true h2
  apply decide_eq_true
  rcases h1b with h1b | ⟨e1, i1⟩ <;> rcases h2b with h2b | ⟨e2, i2⟩
  · exact Or.inl (by omega)
  · exact Or.inl (by omega)
  · exact Or.inl (by omega)
  · exact Or.inr ⟨by omega, by omega⟩

theorem insertSorted_perm {π : Type} (r : QueuedRequest π) :
    ∀ (l : List (QueuedRequest π)), List.Perm (insertSorted r l) (r :: l) := by
  intro l
  induction l with
  | nil => simp [insertSorted]
  | cons x xs ih =>
    unfold insertSorted
    by_cases h : sortLE r x = true
    · rw [if_pos h]
    · rw [if_neg h]
      exact List.Perm.trans (List.Perm.cons x ih) (List.Perm.swap r x xs)

theorem sortQueue_perm {π : Type} :
    ∀ (l : List (QueuedRequest π)), List.Perm (sortQueue l) l := by
  intro l
  induction l with
  | nil => exact List.Perm.refl []
  | cons x xs ih =>
    exact List.Perm.trans (insertSorted_perm x (sortQueue xs)) (List.Perm.cons x ih)

theorem insertSorted_sorted {π : Type} (r : QueuedRequest π) :
    ∀ {l : List (QueuedRequest π)},
      List.Pairwise (fun a b => sortLE a b = true) l →
      List.Pairwise (fun a b => sortLE a b = true) (insertSorted r l) := by
  intro l
  induction l with
  | nil =>
    intro _
    simp [insertSorted]
  | cons x xs ih =>
    intro h
    rcases List.pairwise_cons.mp h with ⟨hx, hxs⟩
    unfold insertSorted
    by_cases hr : sortLE r x = true
    · rw [if_pos hr]
      refine List.pairwise_cons.mpr ⟨?_, h⟩
      intro b hb
      rcases List.mem_cons.mp hb with h2 | h2
      · subst h2; exact hr
      · exact sortLE_trans hr (hx b h2)
    · rw [if_neg hr]
      have hrx : sortLE x r = true := (sortLE_total r x).resolve_left hr
      refine List.pairwise_cons.mpr ⟨?_, ih hxs⟩
      intro b hb
      have hbm : b ∈ r :: xs := (insertSorted_perm r xs).mem_iff.mp hb
      rcases List.mem_cons.mp hbm with h2 | h2
      · subst h2; exact hrx
      · exact hx b h2

theorem sortQueue_sorted {π : Type} :
    ∀ (l : List (QueuedRequest π)),
      List.Pairwise (fun a b => sortLE a b = true) (sortQueue l) := by
  intro l
  induction l with
  | nil => simp [sortQueue]
  | cons x xs ih => exact insertSorted_sorted x ih

/-- The queue state reached through the public API by: create a queue with
`concurrency: 2`, `pause()`, enqueue two normal-priority requests,
`resume()`. -/
def c3ReachedState : QueueState Unit :=
  (resumeQueue
    (enqueue
      (enqueue (pauseQueue (createQueue Unit { concurrency := some 2 }))
        (litStr "a") .normal ()).1
      (litStr "b") .normal ()).1).1

/-- **C3 counterexample.**  Immediately after the `resume()` trigger the
queue is not paused and `runningCount = 1` is below the configured
concurrency `2`, yet the queue is still non-empty: a trigger of
`processNext` admits at most one request, it does not loop.  This refutes
the claim's consequent ("immediately after any trigger, if the queue is
not paused and runningCount < concurrency then the queue is empty"). -/
theorem C3_counterexample :
    c3ReachedState.paused = false ∧
    c3ReachedState.config.concurrency = some 2 ∧
    c3ReachedState.running = 1 ∧
    c3ReachedState.queue ≠ [] := by decide

/-- The admission guard `runningCount < (concurrency ?? Infinity)`. -/
def belowConcurrency {π : Type} (state : QueueState π) : Prop :=
  match state.config.concurrency with
  | some c => state.running < c
  | none => True

/-- **C3 (amended).**  Whenever the admission loop is triggered (it is
triggered after every enqueue, every settle, and every resume), if the
queue is not paused, `runningCount` is below the configured concurrency and
the queue is non-empty, then it re-sorts the queue by priority rank then
arrival id, removes the head, increments `runningCount`, and begins
executing that head — admitting at most one request per trigger, so the
queue may remain non-empty with `runningCount < concurrency` after a
trigger. -/
theorem C3_admission_per_trigger {π : Type} (state : QueueState π)
    (hp : state.paused = false) (hc : belowConcurrency state)
    (hq : state.queue ≠ []) :
    ∃ r rest, sortQueue state.queue = r :: rest ∧
      List.Pairwise (fun a b => sortLE a b = true) (r :: rest) ∧
      List.Perm (r :: rest) state.queue ∧
      processNext state =
        ({ state with queue := rest, running := state.running + 1 }, some r) := by
  have hcan : canProcessNext state = true := by
    unfold canProcessNext
    unfold belowConcurrency at hc
    rw [hp]
    simp only [Bool.false_eq_true, if_false]
    cases hcc : state.config.concurrency with
    | some c =>
      rw [hcc] at hc
      have : ¬(c ≤ state.running) := Nat.not_le.mpr hc
      simp [this, List.isEmpty_iff, hq]
    | none => simp [List.isEmpty_iff, hq]
  have hperm := sortQueue_perm state.queue
  cases hs : sortQueue state.queue with
  | nil =>
    rw [hs] at hperm
    exact absurd (List.Perm.eq_nil hperm.symm) hq
  | cons r rest =>
    refine ⟨r, rest, rfl, ?_, ?_, ?_⟩
    · have h2 := sortQueue_sorted state.queue
      rw [hs] at h2
      exact h2
    · rw [← hs]
      exact hperm
    · simp [processNext, hcan, hs]

/-- Witness for the amended C3: with a critical and a normal request
queued and capacity available, one trigger dispatches exactly the critical
request. -/
theorem C3_admission_per_trigger_witness :
    (processNext
      { queue := [⟨0, .normal, litStr "a", ()⟩, ⟨1, .critical, litStr "b", ()⟩],
        running := 0, paused := false, nextId := 2,
        config := { concurrency := some 2 } } : QueueState Unit × _).2 =
      some ⟨1, .critical, litStr "b", ()⟩ := by
  obtain ⟨r, rest, hs, hsort, hperm, hproc⟩ :=
    C3_admission_per_trigger
      (π := Unit)
      { queue := [⟨0, .normal, litStr "a", ()⟩, ⟨1, .critical, litStr "b", ()⟩],
        running := 0, paused := false, nextId := 2,
        config := { concurrency := some 2 } }
      rfl (show (0 : ℕ) < 2 by norm_num) (by decide)
  have hs2 : (sortQueue
      [(⟨0, .normal, litStr "a", ()⟩ : QueuedRequest Unit),
        ⟨1, .critical, litStr "b", ()⟩]) =
      [⟨1, .critical, litStr "b", ()⟩, ⟨0, .normal, litStr "a", ()⟩] := by decide
  rw [hs2] at hs
  injection hs with h1 h2
  rw [hproc, ← h1]

/-! ## Hook & plugin pipeline and the wrapper
(`src/plugin.ts`, `src/state.ts`, `src/wrap.ts`)

TypeScript erases plugin contexts, arguments, results and thrown values to
`unknown`; the model uses one type parameter `α` for all of them.  The
external world — real time, the underlying callable's settle, and the
rate-limiter's time-dependent admission decisions — is abstracted by a
`CallOracle` that records the callable's outcome, the sequence of denied
rate-limit attempts observed before admission, and the measured latency;
the theorems quantify over every oracle, so they cover every real
schedule. -/

/-- A value thrown by a wrapped callable.  JavaScript can throw any value;
`err` wraps `Error` instances (only these trigger the `onError` hooks),
`raw` any other thrown value. -/
inductive Thrown (α : Type) where
  | err (e : α)
  | raw (v : α)
deriving DecidableEq

/-- `PluginContext`: `{method, args, result?}`. -/
structure PluginContext (α : Type) where
  method : Str
  args : List α
  result : Option α := none
deriving DecidableEq

/-- A plugin.  `beforeHook` is the optional `before` hook, returning the
opaque per-plugin context value; `hasAfter`/`hasOnError` record whether the
void-returning `after`/`onError` hooks are present (their invocations are
observed in the execution trace). -/
structure Plugin (α : Type) where
  name : String
  beforeHook : Option (PluginContext α → α) := none
  hasAfter : Bool := false
  hasOnError : Bool := false

/-- `PluginExecution`: a plugin paired with the context value its `before`
hook returned (`none` models the source's `undefined` placeholder for a
plugin without a `before` hook). -/
structure PluginExecution (α : Type) where
  plugin : Plugin α
  context : Option α

/-- One observable step of a call's execution, in order: the events
emitted through `emitEvent` and the hook/plugin invocations.  `errorEv`
mirrors the declared `error` member of `WrapkitEvents`. -/
inductive Ev (α : Type) where
  | queuedEv (method : Str) (queueSize : ℕ)
  | executingEv (method : Str) (concurrent : ℕ)
  | completedEv (method : Str) (duration : ℚ)
  | rateLimitedEv (method : Str) (retryAfter : ℕ)
  | errorEv (method : Str)
  | globalBeforeCall (method : Str) (args : List α)
  | pluginBeforeCall (name : String) (ctx : PluginContext α)
  | underlyingCall (args : List α)
  | pluginAfterCall (name : String) (context : Option α) (ctx : PluginContext α)
  | globalAfterCall (method : Str) (result : α)
  | pluginOnErrorCall (name : String) (context : Option α) (ctx : PluginContext α)
      (error : α)
  | globalOnErrorCall (method : Str) (error : α)

/-- The global hook set (`WrapHooks`).  `before` may return replacement
args (`none` = `undefined`: keep the original); `after` may return a
replacement result; `onError` receives `Error` instances and may return a
fallback value (`Except.ok`) or throw (`Except.error`). -/
structure WrapHooks (α : Type) where
  before : Option (Str → List α → Option (List α)) := none
  after : Option (Str → α → Option α) := none
  onError : Option (Str → α → Except (Thrown α) α) := none

/-- `runPluginsBefore`: invoke each plugin's `before` hook in registration
order, all on the same context, collecting the executions and the
invocation trace. -/
def runPluginsBefore {α : Type} (plugins : List (Plugin α))
    (ctx : PluginContext α) : List (PluginExecution α) × List (Ev α) :=
  match plugins with
  | [] => ([], [])
  | p :: rest =>
    let tail := runPluginsBefore rest ctx
    match p.beforeHook with
    | some f =>
      (⟨p, some (f ctx)⟩ :: tail.1, .pluginBeforeCall p.name ctx :: tail.2)
    | none => (⟨p, none⟩ :: tail.1, tail.2)

/-- `runPluginsAfter`: invoke the present `after` hooks over the reversed
execution list, each receiving its own plugin's context value. -/
def runPluginsAfter {α : Type} (executions : List (PluginExecution α))
    (ctx : PluginContext α) : List (Ev α) :=
  (executions.reverse).filterMap fun e =>
    if e.plugin.hasAfter then
      some (.pluginAfterCall e.plugin.name e.context ctx)
    else none

/-- `runPluginsOnError`: likewise for the `onError` hooks. -/
def runPluginsOnError {α : Type} (executions : List (PluginExecution α))
    (ctx : PluginContext α) (error : α) : List (Ev α) :=
  (executions.reverse).filterMap fun e =>
    if e.plugin.hasOnError then
      some (.pluginOnErrorCall e.plugin.name e.context ctx error)
    else none

/-- `runBeforeHook`: `result ?? args`. -/
def runBeforeHook {α : Type} (hooks : WrapHooks α) (method : Str)
    (args : List α) : List α × List (Ev α) :=
  match hooks.before with
  | none => (args, [])
  | some f => ((f method args).getD args, [.globalBeforeCall method args])

/-- `runAfterHook`: `modified ?? result`. -/
def runAfterHook {α : Type} (hooks : WrapHooks α) (method : Str)
    (result : α) : α × List (Ev α) :=
  match hooks.after with
  | none => (result, [])
  | some f => ((f method result).getD result, [.globalAfterCall method result])

/-- `handleError`: if a global `onError` hook is configured **and** the
thrown value is an `Error` instance, the hook's result (fallback value or
rethrow) becomes the call's outcome; otherwise rethrow. -/
def handleError {α : Type} (hooks : WrapHooks α) (method : Str)
    (error : Thrown α) : Except (Thrown α) α × List (Ev α) :=
  match hooks.onError, error with
  | some f, .err e => (f method e, [.globalOnErrorCall method e])
  | _, _ => (.error error, [])

/-- `runMethodWithPlugins`: the underlying call (its settle is the oracle's
`outcome`); on success the plugins' `after` hooks (reverse order) then the
global `after` hook; on a thrown value the plugins' `onError` hooks
(reverse order, only run for `Error` instances) and then `handleError`. -/
def runMethodWithPlugins {α : Type} (hooks : WrapHooks α) (method : Str)
    (args : List α) (outcome : α ⊕ Thrown α)
    (executions : List (PluginExecution α)) :
    Except (Thrown α) α × List (Ev α) :=
  match outcome with
  | .inl result =>
    let t1 := runPluginsAfter executions ⟨method, args, some result⟩
    let pr := runAfterHook hooks method result
    (.ok pr.1, .underlyingCall args :: (t1 ++ pr.2))
  | .inr thrown =>
    let t1 :=
      match thrown with
      | .err e => runPluginsOnError executions ⟨method, args, none⟩ e
      | .raw _ => []
    let pr := handleError hooks method thrown
    (pr.1, .underlyingCall args :: (t1 ++ pr.2))

/-- `WrapkitStats`. -/
structure WrapkitStats where
  requestsPerMinute : ℚ
  averageLatency : ℚ
  errorRate : ℚ
  totalRequests : ℕ
deriving DecidableEq

/-- The zeroed stats of `createInitialState`. -/
def initialStats : WrapkitStats :=
  { requestsPerMinute := 0, averageLatency := 0, errorRate := 0, totalRequests := 0 }

/-- `updateStats`: push the latency, bump `totalRequests` and recompute the
arithmetic mean over all recorded latencies.  `errorRate` and
`requestsPerMinute` are never written. -/
def updateStats (stats : WrapkitStats) (latencies : List ℚ) (latencyMs : ℚ) :
    WrapkitStats × List ℚ :=
  let lat2 := latencies ++ [latencyMs]
  ({ stats with
      totalRequests := stats.totalRequests + 1
      averageLatency := (lat2.foldl (· + ·) 0) / (lat2.length : ℚ) },
    lat2)

/-- `PerCallOptions`. -/
structure PerCallOptions where
  timeout : Option ℕ := none
  priority : Option Priority := none
  skipQueue : Option Bool := none
deriving DecidableEq

/-- The oracle for one call: the wrapped callable's settle outcome, the
denied rate-limit attempts observed before admission (their reported
delays), and the measured wall-clock latency. -/
structure CallOracle (α : Type) where
  outcome : α ⊕ Thrown α
  denials : List ℕ := []
  latencyMs : ℚ := 0
deriving DecidableEq

/-- The pending call stored in a queued request's executor closure. -/
structure PendingCall (α : Type) where
  args : List α
  oracle : CallOracle α
deriving DecidableEq

/-- `WrapperState` (`state.ts`): the parts of the shared wrapper state the
pipeline reads and writes.  The rate limiter's token buckets are modelled
in the dedicated rate-limiter section above; here only its in-flight
counters, which the pipeline itself drives on admission and settle, are
kept (`rlInflight = none` models a wrapper without a rate limiter).  Event
listeners receive the events of the trace; the listener map does not
influence the pipeline's behaviour and is omitted. -/
structure WrapperState (α : Type) where
  stats : WrapkitStats
  latencies : List ℚ
  queueState : Option (QueueState (PendingCall α))
  rlInflight : Option (List (Str × ℕ))
  hooks : WrapHooks α
  allowlist : Option (List Str) := none
  blocklist : Option (List Str) := none
  plugins : List (Plugin α) := []
  perCallOptions : Option PerCallOptions := none

/-- `waitForRateLimit`: each denied attempt emits `rateLimited` and waits;
on admission `tryAcquire` has incremented the path's in-flight counter.
Without a rate limiter nothing happens. -/
def waitForRateLimit {α : Type} (state : WrapperState α) (method : Str)
    (denials : List ℕ) : WrapperState α × List (Ev α) :=
  match state.rlInflight with
  | none => (state, [])
  | some counts =>
    ({ state with
        rlInflight :=
          some (setStr counts method ((lookupStr counts method).getD 0 + 1)) },
      denials.map fun d => .rateLimitedEv method d)

/-- `emitCompletion` (the `finally` block of `executeCore`): record the
latency in the stats, emit `completed`, and decrement the in-flight counter
when a rate limiter is configured. -/
def emitCompletion {α : Type} (state : WrapperState α) (method : Str)
    (latencyMs : ℚ) : WrapperState α × List (Ev α) :=
  let pr := updateStats state.stats state.latencies latencyMs
  let st2 := { state with stats := pr.1, latencies := pr.2 }
  let st3 :=
    match st2.rlInflight with
    | none => st2
    | some counts =>
      { st2 with
        rlInflight :=
          some (setStr counts method ((lookupStr counts method).getD 0 - 1)) }
  (st3, [.completedEv method latencyMs])

/-- `executeCore`: emit `executing` (`concurrent` = the queue's running
count, or `1` without a queue), wait for the rate limiter, run the global
`before` hook, the plugins' `before` hooks, then the underlying call with
the plugins' `after`/`onError` hooks and the global `after`/`onError`
hook; finally record stats, emit `completed` and release the rate
limiter. -/
def executeCore {α : Type} (state : WrapperState α) (method : Str)
    (args : List α) (oracle : CallOracle α) :
    Except (Thrown α) α × WrapperState α × List (Ev α) :=
  let concurrent :=
    match state.queueState with
    | some qs => qs.running
    | none => 1
  let pr1 := waitForRateLimit state method oracle.denials
  let pr2 := runBeforeHook pr1.1.hooks method args
  let pr3 := runPluginsBefore pr1.1.plugins ⟨method, pr2.1, none⟩
  let pr4 := runMethodWithPlugins pr1.1.hooks method pr2.1 oracle.outcome pr3.1
  let pr5 := emitCompletion pr1.1 method oracle.latencyMs
  (pr4.1, pr5.1,
    .executingEv method concurrent :: (pr1.2 ++ pr2.2 ++ pr3.2 ++ pr4.2 ++ pr5.2))

/-- The caller-visible result of `executeWithHooks`. -/
inductive CallResult (α : Type) where
  /-- `checkMethodAccess` threw synchronously with this reason -/
  | denied (reason : Str)
  /-- `enqueue` rejected with `Queue is full` -/
  | queueFull
  /-- enqueued; the promise settles when the request is later dispatched -/
  | pending
  /-- executed directly (no queue configured) and settled -/
  | settled (r : Except (Thrown α) α)

/-- Everything `executeWithHooks` produces: the caller-visible result, the
updated shared state, the emitted trace, and the request dispatched by the
triggered admission loop, if any (its execution starts asynchronously and
is modelled by `runDispatched`). -/
structure ExecOutcome (α : Type) where
  result : CallResult α
  state : WrapperState α
  trace : List (Ev α)
  dispatched : Option (QueuedRequest (PendingCall α)) := none

/-- `executeWithHooks`: `checkMethodAccess` is the synchronous first gate;
with a queue configured the call emits `queued` and is enqueued with the
per-call priority (default `normal`) — `perCallOptions.skipQueue` and
`perCallOptions.timeout` are never read by the pipeline; without a queue
the call runs `executeCore` directly. -/
def executeWithHooks {α : Type} (state : WrapperState α) (method : Str)
    (args : List α) (oracle : CallOracle α) : ExecOutcome α :=
  let access := checkAccess method state.allowlist state.blocklist
  match access.reason with
  | some reason => { result := .denied reason, state := state, trace := [] }
  | none =>
    match state.queueState with
    | some qs =>
      let ev0 : Ev α := .queuedEv method (qs.queue.length + 1)
      let pr := enqueue qs method
        ((state.perCallOptions.bind fun o => o.priority).getD .normal)
        (PendingCall.mk args oracle)
      match pr.2 with
      | .rejectedFull =>
        { result := .queueFull, state := { state with queueState := some pr.1 },
          trace := [ev0] }
      | .enqueued dispatched =>
        { result := .pending, state := { state with queueState := some pr.1 },
          trace := [ev0], dispatched := dispatched }
    | none =>
      let pr := executeCore state method args oracle
      { result := .settled pr.1, state := pr.2.1, trace := pr.2.2 }

/-- Run the body of a request the admission loop dispatched: `executeCore`
on the stored call, then the `.finally` settle handler (decrement
`running`, re-trigger the admission loop; any request dispatched by the
re-trigger is returned for the scheduler). -/
def runDispatched {α : Type} (state : WrapperState α)
    (req : QueuedRequest (PendingCall α)) :
    WrapperState α × List (Ev α) × Option (QueuedRequest (PendingCall α)) :=
  let pr := executeCore state req.methodPath req.payload.args req.payload.oracle
  match pr.2.1.queueState with
  | none => (pr.2.1, pr.2.2, none)
  | some qs =>
    let pr2 := settleStep qs
    ({ pr.2.1 with queueState := some pr2.1 }, pr.2.2, pr2.2)

/-- `executeWithTimeout` (`queue.ts`): a dispatched request raced against
the queue's config-level `timeout` (JS truthiness: `timeout: 0` disables
it).  `settleMs` is the time the executor takes; the timer wins when it
fires strictly earlier.  The rejection message is the fixed string
`Request timed out`: it names neither the method path nor the timeout
value.  (This config-level race is the only timeout mechanism in the
code.) -/
inductive TimedResult (α : Type) where
  | finished (r : Except (Thrown α) α)
  | timedOut (message : Str)

/-- See `TimedResult`. -/
def executeWithTimeout {α : Type} (timeoutMs : Option ℕ) (settleMs : ℕ)
    (r : Except (Thrown α) α) : TimedResult α :=
  match timeoutMs with
  | none => .finished r
  | some t =>
    if t = 0 then .finished r
    else if t < settleMs then .timedOut (litStr "Request timed out")
    else .finished r

/-! ### C1 and C2: the per-call `skipQueue` and `timeout` options are
never read by the pipeline (`executeWithHooks` only reads
`perCallOptions.priority`), although the repository's tests, README and
type declarations promise them. -/

/-- The wrapper of the repository's failing `skipQueue` test
(`wrap.test.ts`, "should allow skipping the queue with skipQueue
option"): `queue: {concurrency: 1}`, queue paused, viewed through
`withOptions({skipQueue: true})`. -/
def c1State : WrapperState ℕ :=
  { stats := initialStats, latencies := [],
    queueState := some (pauseQueue (createQueue _ { concurrency := some 1 })),
    rlInflight := none, hooks := {}, plugins := [],
    perCallOptions := some { skipQueue := some true } }

/-- **C1 (code bug).**  A call through `withOptions({skipQueue: true})` on
a wrapper with a (paused) queue does **not** bypass the queue: it emits
`queued`, is placed in the queue as a normal request occupying a slot, and
stays pending awaiting concurrency admission — `skipQueue` is never read
(the result is identical for every value of the option).  The repository's
own test expects the call to execute immediately. -/
theorem C1_skipQueue_not_bypassed :
    ((executeWithHooks c1State (litStr "chat.completions.create") []
        ⟨.inl 1, [], 0⟩).result = .pending ∧
      (executeWithHooks c1State (litStr "chat.completions.create") []
        ⟨.inl 1, [], 0⟩).trace =
        [.queuedEv (litStr "chat.completions.create") 1] ∧
      (executeWithHooks c1State (litStr "chat.completions.create") []
        ⟨.inl 1, [], 0⟩).state.queueState =
        some { queue := [⟨0, .normal, litStr "chat.completions.create",
                  ⟨[], ⟨.inl 1, [], 0⟩⟩⟩],
               running := 0, paused := true, nextId := 1,
               config := { concurrency := some 1 } }) ∧
    (∀ sq1 sq2 : Option Bool,
      (executeWithHooks { c1State with perCallOptions := some { skipQueue := sq1 } }
        (litStr "chat.completions.create") [] ⟨.inl 1, [], 0⟩).result =
      (executeWithHooks { c1State with perCallOptions := some { skipQueue := sq2 } }
        (litStr "chat.completions.create") [] ⟨.inl 1, [], 0⟩).result) :=
  ⟨⟨rfl, rfl, rfl⟩, fun _ _ => rfl⟩

/-- The wrapper of the repository's failing per-call-timeout test
(`wrap.test.ts`, "should allow setting timeout per call"): `wrap(client)`
with no queue, viewed through `withOptions({timeout: 10})`; the underlying
call settles successfully after 100 ms. -/
def c2State : WrapperState ℕ :=
  { stats := initialStats, latencies := [], queueState := none,
    rlInflight := none, hooks := {}, plugins := [],
    perCallOptions := some { timeout := some 10 } }

/-- **C2 (code bug).**  A call through `withOptions({timeout: 10})` whose
underlying call takes 100 ms does **not** reject: it resolves with the real
result, because `perCallOptions.timeout` is never read (the result is
identical for every value of the option).  The only timeout in the code is
the queue's config-level race, whose message is the fixed string
`Request timed out`, naming neither the method path nor the timeout value.
The repository's own test expects rejection with
`Method 'chat.completions.create' timed out after 10ms`. -/
theorem C2_perCall_timeout_not_implemented :
    ((executeWithHooks c2State (litStr "chat.completions.create") []
        ⟨.inl 7, [], 100⟩).result = .settled (.ok 7)) ∧
    (∀ t1 t2 : Option ℕ,
      (executeWithHooks { c2State with perCallOptions := some { timeout := t1 } }
        (litStr "chat.completions.create") [] ⟨.inl 7, [], 100⟩).result =
      (executeWithHooks { c2State with perCallOptions := some { timeout := t2 } }
        (litStr "chat.completions.create") [] ⟨.inl 7, [], 100⟩).result) ∧
    (∀ (t s : ℕ) (r : Except (Thrown ℕ) ℕ),
      executeWithTimeout (some (t + 1)) (t + 2 + s) r =
        .timedOut (litStr "Request timed out")) := by
  refine ⟨rfl, fun _ _ => rfl, ?_⟩
  intro t s r
  show (if (t + 1) = 0 then TimedResult.finished r
      else if (t + 1) < t + 2 + s then
        TimedResult.timedOut (litStr "Request timed out")
      else TimedResult.finished r) =
    TimedResult.timedOut (litStr "Request timed out")
  rw [if_neg (by omega), if_pos (by omega)]

/-! ### C4: access control is the synchronous first gate -/

/-- **C4.**  Access control is evaluated synchronously as the very first
gate of `executeWithHooks`: if a blocklist is configured and the path
matches any of its patterns the call throws `Method "<path>" is blocked`;
otherwise if an allowlist is configured and the path matches none of its
patterns the call throws `Method "<path>" is not allowed`; otherwise
(including when neither list is configured) the call is allowed.  A denied
call returns with the shared state unchanged, an empty trace (no events,
no hook invocations, no stats update) and nothing queued or dispatched. -/
theorem C4_access_first_gate {α : Type} (state : WrapperState α) (method : Str)
    (args : List α) (oracle : CallOracle α) :
    ((∃ bl, state.blocklist = some bl ∧ matchesAnyPattern method bl = true) →
      executeWithHooks state method args oracle =
        { result := .denied (blockedReason method), state := state, trace := [],
          dispatched := none }) ∧
    ((∀ bl, state.blocklist = some bl → matchesAnyPattern method bl = false) →
      (∃ al, state.allowlist = some al ∧ matchesAnyPattern method al = false) →
      executeWithHooks state method args oracle =
        { result := .denied (notAllowedReason method), state := state, trace := [],
          dispatched := none }) ∧
    ((∀ bl, state.blocklist = some bl → matchesAnyPattern method bl = false) →
      (∀ al, state.allowlist = some al → matchesAnyPattern method al = true) →
      (checkAccess method state.allowlist state.blocklist).isAllowed = true) := by
  refine ⟨?_, ?_, ?_⟩
  · rintro ⟨bl, hbl, hm⟩
    have hacc : checkAccess method state.allowlist state.blocklist =
        { isAllowed := false, reason := some (blockedReason method) } := by
      unfold checkAccess
      rw [hbl]
      simp [hm]
    simp [executeWithHooks, hacc]
  · intro hnb
    rintro ⟨al, hal, ham⟩
    have hacc : checkAccess method state.allowlist state.blocklist =
        { isAllowed := false, reason := some (notAllowedReason method) } := by
      unfold checkAccess
      rw [hal]
      cases hb : state.blocklist with
      | none => simp [ham]
      | some bl => simp [hnb bl hb, ham]
    simp [executeWithHooks, hacc]
  · intro hnb hal
    unfold checkAccess
    cases hb : state.blocklist with
    | none =>
      cases ha : state.allowlist with
      | none => rfl
      | some al => simp [hal al ha]
    | some bl =>
      cases ha : state.allowlist with
      | none => simp [hnb bl hb]
      | some al => simp [hnb bl hb, hal al ha]

/-- The wrapper of the witness: `blocklist: ['files.delete']`. -/
def c4State : WrapperState ℕ :=
  { stats := initialStats, latencies := [], queueState := none,
    rlInflight := none, hooks := {}, blocklist := some [litStr "files.delete"] }

/-- Witness for C4: calling `files.delete` against
`blocklist: ['files.delete']` throws `Method "files.delete" is blocked`
with no side effects. -/
theorem C4_access_first_gate_witness :
    executeWithHooks c4State (litStr "files.delete") [] ⟨.inl 0, [], 0⟩ =
      { result := .denied (blockedReason (litStr "files.delete")), state := c4State,
        trace := [], dispatched := none } :=
  (C4_access_first_gate c4State (litStr "files.delete") [] ⟨.inl 0, [], 0⟩).1
    ⟨[litStr "files.delete"], rfl, by decide⟩

/-! ### C6: the onion model -/

/-- The hook-invocation events of a trace. -/
def isHookEv {α : Type} : Ev α → Bool
  | .globalBeforeCall .. => true
  | .pluginBeforeCall .. => true
  | .underlyingCall .. => true
  | .pluginAfterCall .. => true
  | .globalAfterCall .. => true
  | .pluginOnErrorCall .. => true
  | .globalOnErrorCall .. => true
  | _ => false

/-- The hook-invocation subsequence of a trace. -/
def hookTrace {α : Type} (t : List (Ev α)) : List (Ev α) := t.filter isHookEv

/-- The hook order the specification prescribes for a successful call
(onion model): the global `before` hook, the plugins' `before` hooks in
registration order (all on the same context), the underlying call, the
plugins' `after` hooks in reverse registration order — each receiving the
context value its own `before` hook returned — and the global `after`
hook. -/
def specSuccessTrace {α : Type} (hooks : WrapHooks α) (plugins : List (Plugin α))
    (method : Str) (args finalArgs : List α) (result : α) : List (Ev α) :=
  (match hooks.before with
   | some _ => [Ev.globalBeforeCall method args]
   | none => []) ++
  (plugins.filterMap fun p =>
    p.beforeHook.map fun _ => Ev.pluginBeforeCall p.name ⟨method, finalArgs, none⟩) ++
  Ev.underlyingCall finalArgs ::
  (((plugins.reverse).filterMap fun p =>
    if p.hasAfter then
      some (Ev.pluginAfterCall p.name
        (p.beforeHook.map fun f => f ⟨method, finalArgs, none⟩)
        ⟨method, finalArgs, some result⟩)
    else none) ++
  (match hooks.after with
   | some _ => [Ev.globalAfterCall method result]
   | none => []))

/-- The hook order the specification prescribes for a failing call: global
`before`, plugin `before`s in order, the underlying call, the plugins'
`onError` hooks in reverse registration order — each with its own `before`
context — and the global `onError` hook. -/
def specFailureTrace {α : Type} (hooks : WrapHooks α) (plugins : List (Plugin α))
    (method : Str) (args finalArgs : List α) (e : α) : List (Ev α) :=
  (match hooks.before with
   | some _ => [Ev.globalBeforeCall method args]
   | none => []) ++
  (plugins.filterMap fun p =>
    p.beforeHook.map fun _ => Ev.pluginBeforeCall p.name ⟨method, finalArgs, none⟩) ++
  Ev.underlyingCall finalArgs ::
  (((plugins.reverse).filterMap fun p =>
    if p.hasOnError then
      some (Ev.pluginOnErrorCall p.name
        (p.beforeHook.map fun f => f ⟨method, finalArgs, none⟩)
        ⟨method, finalArgs, none⟩ e)
    else none) ++
  (match hooks.onError with
   | some _ => [Ev.globalOnErrorCall method e]
   | none => []))

theorem runPluginsBefore_spec {α : Type} (plugins : List (Plugin α))
    (ctx : PluginContext α) :
    runPluginsBefore plugins ctx =
      (plugins.map fun p => ⟨p, p.beforeHook.map fun f => f ctx⟩,
        plugins.filterMap fun p =>
          p.beforeHook.map fun _ => Ev.pluginBeforeCall p.name ctx) := by
  induction plugins with
  | nil => rfl
  | cons p rest ih =>
    simp only [runPluginsBefore, ih]
    cases hb : p.beforeHook with
    | some f => simp [hb, List.filterMap_cons]
    | none => simp [hb, List.filterMap_cons]

theorem runPluginsAfter_spec {α : Type} (plugins : List (Plugin α))
    (ctx ctx2 : PluginContext α) :
    runPluginsAfter (plugins.map fun p => ⟨p, p.beforeHook.map fun f => f ctx⟩)
        ctx2 =
      (plugins.reverse).filterMap fun p =>
        if p.hasAfter then
          some (Ev.pluginAfterCall p.name (p.beforeHook.map fun f => f ctx) ctx2)
        else none := by
  unfold runPluginsAfter
  rw [← List.map_reverse, List.filterMap_map]
  rfl

theorem runPluginsOnError_spec {α : Type} (plugins : List (Plugin α))
    (ctx ctx2 : PluginContext α) (e : α) :
    runPluginsOnError (plugins.map fun p => ⟨p, p.beforeHook.map fun f => f ctx⟩)
        ctx2 e =
      (plugins.reverse).filterMap fun p =>
        if p.hasOnError then
          some (Ev.pluginOnErrorCall p.name (p.beforeHook.map fun f => f ctx)
            ctx2 e)
        else none := by
  unfold runPluginsOnError
  rw [← List.map_reverse, List.filterMap_map]
  rfl

theorem waitForRateLimit_fields {α : Type} (state : WrapperState α) (method : Str)
    (ds : List ℕ) :
    (waitForRateLimit state method ds).1.hooks = state.hooks ∧
    (waitForRateLimit state method ds).1.plugins = state.plugins := by
  unfold waitForRateLimit
  cases h : state.rlInflight <;> simp [h]

theorem filter_hook_wait {α : Type} (state : WrapperState α) (method : Str)
    (ds : List ℕ) :
    ((waitForRateLimit state method ds).2).filter isHookEv = ([] : List (Ev α)) := by
  unfold waitForRateLimit
  cases h : state.rlInflight with
  | none => simp
  | some counts =>
    simp only [h]
    induction ds with
    | nil => rfl
    | cons d rest ih => simp [List.filter_cons, isHookEv, ih]

theorem filter_hook_beforeTrace {α : Type} (plugins : List (Plugin α))
    (ctx : PluginContext α) :
    ((plugins.filterMap fun p =>
        p.beforeHook.map fun _ => Ev.pluginBeforeCall p.name ctx)).filter
      isHookEv =
      plugins.filterMap fun p =>
        p.beforeHook.map fun _ => Ev.pluginBeforeCall p.name ctx := by
  apply List.filter_eq_self.mpr
  intro e he
  obtain ⟨p, hp, heq⟩ := List.mem_filterMap.mp he
  obtain ⟨f, hf, hfe⟩ := Option.map_eq_some'.mp heq
  rw [← hfe]
  rfl

theorem filter_hook_afterTrace {α : Type} (plugins : List (Plugin α))
    (ctxv : Plugin α → Option α) (ctx2 : PluginContext α) :
    (((plugins.reverse).filterMap fun p =>
        if p.hasAfter then
          some (Ev.pluginAfterCall p.name (ctxv p) ctx2)
        else none)).filter isHookEv =
      (plugins.reverse).filterMap fun p =>
        if p.hasAfter then
          some (Ev.pluginAfterCall p.name (ctxv p) ctx2)
        else none := by
  apply List.filter_eq_self.mpr
  intro e he
  obtain ⟨p, hp, heq⟩ := List.mem_filterMap.mp he
  by_cases ha : p.hasAfter
  · rw [if_pos ha] at heq
    injection heq with heq2
    rw [← heq2]
    rfl
  · rw [if_neg ha] at heq
    exact absurd heq (by simp)

theorem filter_hook_onErrorTrace {α : Type} (plugins : List (Plugin α))
    (ctxv : Plugin α → Option α) (ctx2 : PluginContext α) (e : α) :
    (((plugins.reverse).filterMap fun p =>
        if p.hasOnError then
          some (Ev.pluginOnErrorCall p.name (ctxv p) ctx2 e)
        else none)).filter isHookEv =
      (plugins.reverse).filterMap fun p =>
        if p.hasOnError then
          some (Ev.pluginOnErrorCall p.name (ctxv p) ctx2 e)
        else none := by
  apply List.filter_eq_self.mpr
  intro ev hev
  obtain ⟨p, hp, heq⟩ := List.mem_filterMap.mp hev
  by_cases ha : p.hasOnError
  · rw [if_pos ha] at heq
    injection heq with heq2
    rw [← heq2]
    rfl
  · rw [if_neg ha] at heq
    exact absurd heq (by simp)

theorem filter_hook_runBeforeHook {α : Type} (hooks : WrapHooks α) (m : Str)
    (args : List α) :
    ((runBeforeHook hooks m args).2).filter isHookEv =
      (match hooks.before with
       | some _ => [Ev.globalBeforeCall m args]
       | none => []) := by
  unfold runBeforeHook
  cases h : hooks.before <;> simp [h, isHookEv]

theorem filter_hook_runAfterHook {α : Type} (hooks : WrapHooks α) (m : Str)
    (v : α) :
    ((runAfterHook hooks m v).2).filter isHookEv =
      (match hooks.after with
       | some _ => [Ev.globalAfterCall m v]
       | none => []) := by
  unfold runAfterHook
  cases h : hooks.after <;> simp [h, isHookEv]

theorem filter_hook_handleError {α : Type} (hooks : WrapHooks α) (m : Str)
    (e : α) :
    ((handleError hooks m (.err e)).2).filter isHookEv =
      (match hooks.onError with
       | some _ => [Ev.globalOnErrorCall m e]
       | none => []) := by
  unfold handleError
  cases h : hooks.onError <;> simp [h, isHookEv]

/-- **C6.**  For every call through a wrapper with registered plugins, on
any schedule (any rate-limit denial sequence) and any latency: the
hook-invocation order of `executeCore` is exactly the onion order the
specification prescribes — for a successful call, global `before`, plugin
`before`s in registration order, the underlying call, plugin `after`s in
reverse registration order, global `after`; for a call failing with an
`Error`, the same prefix followed by plugin `onError`s in reverse
registration order and the global `onError`; and the `after`/`onError`
invocation of each plugin receives exactly the context value that plugin's
own `before` hook returned. -/
theorem C6_onion_order {α : Type} (state : WrapperState α) (method : Str)
    (args : List α) (v e : α) (denials : List ℕ) (lat : ℚ) :
    hookTrace (executeCore state method args ⟨.inl v, denials, lat⟩).2.2 =
      specSuccessTrace state.hooks state.plugins method args
        (runBeforeHook state.hooks method args).1 v ∧
    hookTrace (executeCore state method args ⟨.inr (.err e), denials, lat⟩).2.2 =
      specFailureTrace state.hooks state.plugins method args
        (runBeforeHook state.hooks method args).1 e := by
  obtain ⟨hh, hp⟩ := waitForRateLimit_fields state method denials
  constructor
  · unfold executeCore
    simp only [hh, hp, runPluginsBefore_spec, runMethodWithPlugins, emitCompletion,
      hookTrace]
    simp only [List.filter_cons, List.filter_append, isHookEv, filter_hook_wait,
      filter_hook_beforeTrace, filter_hook_runBeforeHook, runPluginsAfter_spec,
      filter_hook_afterTrace, filter_hook_runAfterHook]
    simp [specSuccessTrace, isHookEv, List.filter_cons, List.filter_append,
      filter_hook_afterTrace]
  · unfold executeCore
    simp only [hh, hp, runPluginsBefore_spec, runMethodWithPlugins, emitCompletion,
      hookTrace]
    simp only [List.filter_cons, List.filter_append, isHookEv, filter_hook_wait,
      filter_hook_beforeTrace, filter_hook_runBeforeHook, runPluginsOnError_spec,
      filter_hook_onErrorTrace, filter_hook_handleError]
    simp [specFailureTrace, isHookEv, List.filter_cons, List.filter_append,
      filter_hook_onErrorTrace]

/-! ### C9: error propagation through the `onError` hooks -/

/-- The `onError`-invocation events of a trace. -/
def isOnErrorEv {α : Type} : Ev α → Bool
  | .pluginOnErrorCall .. => true
  | .globalOnErrorCall .. => true
  | _ => false

/-- The wrapper of the C9 counterexample: one plugin with an `onError`
hook, and a global `onError` hook returning the fallback value `42`. -/
def c9State : WrapperState ℕ :=
  { stats := initialStats, latencies := [], queueState := none,
    rlInflight := none,
    hooks := { onError := some fun _ _ => .ok 42 },
    plugins := [{ name := "p1", hasOnError := true }] }

/-- **C9 counterexample.**  The wrapped callable throws the non-`Error`
value `7`; although a plugin `onError` hook and a fallback-returning global
`onError` hook are configured, **no** `onError` hook is invoked and the
call rejects with the raw value instead of resolving with the fallback:
`runMethodWithPlugins` and `handleError` both guard on
`error instanceof Error`.  This refutes the claim for values thrown that
are not `Error` instances. -/
theorem C9_counterexample :
    (executeCore c9State (litStr "m") [] ⟨.inr (.raw 7), [], 0⟩).1 =
      .error (.raw 7) ∧
    ((executeCore c9State (litStr "m") [] ⟨.inr (.raw 7), [], 0⟩).2.2).filter
      isOnErrorEv = [] :=
  ⟨rfl, rfl⟩

theorem filter_onerr_of_no_onerr {α : Type} {t : List (Ev α)}
    (h : ∀ e ∈ t, isOnErrorEv e = false) : t.filter isOnErrorEv = [] := by
  induction t with
  | nil => rfl
  | cons x xs ih =>
    rw [List.filter_cons, h x (List.mem_cons_self _ _)]
    simp only [Bool.false_eq_true, if_false]
    exact ih fun e he => h e (List.mem_cons_of_mem _ he)

theorem filter_onerr_wait {α : Type} (state : WrapperState α) (method : Str)
    (ds : List ℕ) :
    ((waitForRateLimit state method ds).2).filter isOnErrorEv =
      ([] : List (Ev α)) := by
  apply filter_onerr_of_no_onerr
  intro e he
  unfold waitForRateLimit at he
  cases h : state.rlInflight with
  | none => rw [h] at he; simp at he
  | some counts =>
    rw [h] at he
    simp only [List.mem_map] at he
    obtain ⟨d, -, hde⟩ := he
    rw [← hde]
    rfl

theorem filter_onerr_runBeforeHook {α : Type} (hooks : WrapHooks α) (m : Str)
    (args : List α) :
    ((runBeforeHook hooks m args).2).filter isOnErrorEv = [] := by
  unfold runBeforeHook
  cases h : hooks.before <;> simp [h, isOnErrorEv]

theorem filter_onerr_beforeTrace {α : Type} (plugins : List (Plugin α))
    (ctx : PluginContext α) :
    ((plugins.filterMap fun p =>
        p.beforeHook.map fun _ => Ev.pluginBeforeCall p.name ctx)).filter
      isOnErrorEv = [] := by
  apply filter_onerr_of_no_onerr
  intro e he
  obtain ⟨p, hp, heq⟩ := List.mem_filterMap.mp he
  obtain ⟨f, hf, hfe⟩ := Option.map_eq_some'.mp heq
  rw [← hfe]
  rfl

theorem filter_onerr_onErrorTrace {α : Type} (plugins : List (Plugin α))
    (ctxv : Plugin α → Option α) (ctx2 : PluginContext α) (e : α) :
    (((plugins.reverse).filterMap fun p =>
        if p.hasOnError then
          some (Ev.pluginOnErrorCall p.name (ctxv p) ctx2 e)
        else none)).filter isOnErrorEv =
      (plugins.reverse).filterMap fun p =>
        if p.hasOnError then
          some (Ev.pluginOnErrorCall p.name (ctxv p) ctx2 e)
        else none := by
  apply List.filter_eq_self.mpr
  intro ev hev
  obtain ⟨p, hp, heq⟩ := List.mem_filterMap.mp hev
  by_cases ha : p.hasOnError
  · rw [if_pos ha] at heq
    injection heq with heq2
    rw [← heq2]
    rfl
  · rw [if_neg ha] at heq
    exact absurd heq (by simp)

theorem filter_onerr_handleError {α : Type} (hooks : WrapHooks α) (m : Str)
    (e : α) :
    ((handleError hooks m (.err e)).2).filter isOnErrorEv =
      (match hooks.onError with
       | some _ => [Ev.globalOnErrorCall m e]
       | none => []) := by
  unfold handleError
  cases h : hooks.onError <;> simp [h, isOnErrorEv]

/-- **C9 (amended).**  For every `Error` instance thrown by the wrapped
callable (values thrown that are not `Error` instances skip the `onError`
hooks and propagate unchanged): the error is passed through every plugin's
`onError` hook in reverse registration order, then through the global
`onError` hook when one is configured; the global hook's result is the
call's outcome — returning a fallback value resolves the call with that
value, rethrowing propagates; with no global hook the error
propagates. -/
theorem C9_error_hooks {α : Type} (state : WrapperState α) (method : Str)
    (args : List α) (e : α) (denials : List ℕ) (lat : ℚ) :
    (executeCore state method args ⟨.inr (.err e), denials, lat⟩).1 =
      (match state.hooks.onError with
       | some f => f method e
       | none => Except.error (.err e)) ∧
    ((executeCore state method args ⟨.inr (.err e), denials, lat⟩).2.2).filter
        isOnErrorEv =
      ((state.plugins.reverse).filterMap fun p =>
        if p.hasOnError then
          some (Ev.pluginOnErrorCall p.name
            (p.beforeHook.map fun f =>
              f ⟨method, (runBeforeHook state.hooks method args).1, none⟩)
            ⟨method, (runBeforeHook state.hooks method args).1, none⟩ e)
        else none) ++
      (match state.hooks.onError with
       | some _ => [Ev.globalOnErrorCall method e]
       | none => []) := by
  obtain ⟨hh, hp⟩ := waitForRateLimit_fields state method denials
  constructor
  · unfold executeCore
    simp only [hh, hp, runMethodWithPlugins, handleError]
    cases h : state.hooks.onError <;> simp [h]
  · unfold executeCore
    simp only [hh, hp, runPluginsBefore_spec, runMethodWithPlugins, emitCompletion]
    simp only [List.filter_cons, List.filter_append, isOnErrorEv, filter_onerr_wait,
      filter_onerr_beforeTrace, filter_onerr_runBeforeHook, runPluginsOnError_spec,
      filter_onerr_onErrorTrace, filter_onerr_handleError]
    simp [isOnErrorEv, List.filter_cons, List.filter_append,
      filter_onerr_onErrorTrace]

/-! ### C10: inert stats fields and the never-emitted `error` event -/

/-- `createInitialState` (`state.ts`): zeroed stats, empty latencies, queue
and rate limiter according to the config, no plugins, no per-call
options. -/
def createInitialState (α : Type) (hooks : WrapHooks α)
    (allowlist blocklist : Option (List Str)) (queueConfig : Option QueueConfig)
    (hasRateLimiter : Bool) : WrapperState α :=
  { stats := initialStats, latencies := [],
    queueState := queueConfig.map fun qc => createQueue _ qc,
    rlInflight := if hasRateLimiter then some [] else none,
    hooks := hooks, allowlist := allowlist, blocklist := blocklist,
    plugins := [], perCallOptions := none }

/-- One operation on a wrapper: an intercepted call, the queue-control
facade (`pause`/`resume`/`clear`), the asynchronous completion of a
dispatched request (`finish n` settles the n-th in-flight one), and the
chaining operations `withOptions`/`use`. -/
inductive Op (α : Type) where
  | call (method : Str) (args : List α) (oracle : CallOracle α)
  | pauseOp
  | resumeOp
  | clearOp
  | finish (n : ℕ)
  | withOptionsOp (opts : PerCallOptions)
  | useOp (p : Plugin α)

/-- The scheduler's world: the shared wrapper state plus the requests
dispatched but not yet finished. -/
structure WorldState (α : Type) where
  wrapper : WrapperState α
  inflight : List (QueuedRequest (PendingCall α))

/-- One step of the world. -/
def stepOp {α : Type} (w : WorldState α) : Op α → WorldState α × List (Ev α)
  | .call method args oracle =>
    let out := executeWithHooks w.wrapper method args oracle
    ({ wrapper := out.state, inflight := w.inflight ++ out.dispatched.toList },
      out.trace)
  | .pauseOp =>
    match w.wrapper.queueState with
    | none => (w, [])
    | some qs =>
      ({ w with wrapper := { w.wrapper with queueState := some (pauseQueue qs) } },
        [])
  | .resumeOp =>
    match w.wrapper.queueState with
    | none => (w, [])
    | some qs =>
      let pr := resumeQueue qs
      ({ wrapper := { w.wrapper with queueState := some pr.1 },
         inflight := w.inflight ++ pr.2.toList }, [])
  | .clearOp =>
    match w.wrapper.queueState with
    | none => (w, [])
    | some qs =>
      ({ w with
          wrapper := { w.wrapper with queueState := some (clearQueue qs).1 } }, [])
  | .finish n =>
    match w.inflight[n]? with
    | none => (w, [])
    | some req =>
      let pr := runDispatched w.wrapper req
      ({ wrapper := pr.1, inflight := w.inflight.eraseIdx n ++ pr.2.2.toList },
        pr.2.1)
  | .withOptionsOp opts =>
    ({ w with wrapper := { w.wrapper with perCallOptions := some opts } }, [])
  | .useOp p =>
    ({ w with wrapper := { w.wrapper with plugins := w.wrapper.plugins ++ [p] } },
      [])

/-- Run a sequence of operations, collecting the emitted events. -/
def runOps {α : Type} (w : WorldState α) : List (Op α) → WorldState α × List (Ev α)
  | [] => (w, [])
  | op :: rest =>
    let pr := stepOp w op
    let pr2 := runOps pr.1 rest
    (pr2.1, pr.2 ++ pr2.2)

/-- The declared-but-never-emitted `error` event. -/
def isErrorEv {α : Type} : Ev α → Bool
  | .errorEv _ => true
  | _ => false

theorem waitForRateLimit_stats {α : Type} (state : WrapperState α) (m : Str)
    (ds : List ℕ) : (waitForRateLimit state m ds).1.stats = state.stats := by
  unfold waitForRateLimit
  cases h : state.rlInflight <;> simp [h]

theorem emitCompletion_stats {α : Type} (state : WrapperState α) (m : Str)
    (ms : ℚ) :
    (emitCompletion state m ms).1.stats.errorRate = state.stats.errorRate ∧
    (emitCompletion state m ms).1.stats.requestsPerMinute =
      state.stats.requestsPerMinute := by
  unfold emitCompletion updateStats
  cases h : state.rlInflight <;> simp [h]

theorem executeCore_stats {α : Type} (state : WrapperState α) (m : Str)
    (args : List α) (oracle : CallOracle α) :
    (executeCore state m args oracle).2.1.stats.errorRate =
      state.stats.errorRate ∧
    (executeCore state m args oracle).2.1.stats.requestsPerMinute =
      state.stats.requestsPerMinute := by
  unfold executeCore
  have h1 := emitCompletion_stats (waitForRateLimit state m oracle.denials).1 m
    oracle.latencyMs
  have h2 := waitForRateLimit_stats state m oracle.denials
  rw [h2] at h1
  exact h1

theorem executeWithHooks_stats {α : Type} (state : WrapperState α) (m : Str)
    (args : List α) (oracle : CallOracle α) :
    (executeWithHooks state m args oracle).state.stats.errorRate =
      state.stats.errorRate ∧
    (executeWithHooks state m args oracle).state.stats.requestsPerMinute =
      state.stats.requestsPerMinute := by
  unfold executeWithHooks
  cases hacc : (checkAccess m state.allowlist state.blocklist).reason with
  | some r => simp [hacc]
  | none =>
    simp only [hacc]
    cases hqs : state.queueState with
    | some qs =>
      cases hpr : (enqueue qs m
          ((state.perCallOptions.bind fun o => o.priority).getD .normal)
          (PendingCall.mk args oracle)).2 with
      | rejectedFull => simp [hpr]
      | enqueued d => simp [hpr]
    | none =>
      simp only
      exact executeCore_stats state m args oracle

theorem runDispatched_stats {α : Type} (state : WrapperState α)
    (req : QueuedRequest (PendingCall α)) :
    (runDispatched state req).1.stats.errorRate = state.stats.errorRate ∧
    (runDispatched state req).1.stats.requestsPerMinute =
      state.stats.requestsPerMinute := by
  unfold runDispatched
  have h := executeCore_stats state req.methodPath req.payload.args
    req.payload.oracle
  cases hqs : (executeCore state req.methodPath req.payload.args
      req.payload.oracle).2.1.queueState with
  | none => simpa [hqs] using h
  | some qs => simpa [hqs] using h

theorem no_errorEv_wait {α : Type} (state : WrapperState α) (m : Str)
    (ds : List ℕ) :
    ∀ ev ∈ (waitForRateLimit state m ds).2, isErrorEv ev = false := by
  intro ev hev
  unfold waitForRateLimit at hev
  cases h : state.rlInflight with
  | none => rw [h] at hev; simp at hev
  | some counts =>
    rw [h] at hev
    simp only [List.mem_map] at hev
    obtain ⟨d, -, hd⟩ := hev
    rw [← hd]
    rfl

theorem no_errorEv_runBeforeHook {α : Type} (hooks : WrapHooks α) (m : Str)
    (args : List α) :
    ∀ ev ∈ (runBeforeHook hooks m args).2, isErrorEv ev = false := by
  intro ev hev
  unfold runBeforeHook at hev
  cases h : hooks.before with
  | none => rw [h] at hev; simp at hev
  | some f =>
    rw [h] at hev
    simp at hev
    rw [hev]
    rfl

theorem no_errorEv_runPluginsBefore {α : Type} (plugins : List (Plugin α))
    (ctx : PluginContext α) :
    ∀ ev ∈ (runPluginsBefore plugins ctx).2, isErrorEv ev = false := by
  intro ev hev
  rw [runPluginsBefore_spec] at hev
  obtain ⟨p, hp, heq⟩ := List.mem_filterMap.mp hev
  obtain ⟨f, hf, hfe⟩ := Option.map_eq_some'.mp heq
  rw [← hfe]
  rfl

theorem no_errorEv_runPluginsAfter {α : Type}
    (execs : List (PluginExecution α)) (ctx : PluginContext α) :
    ∀ ev ∈ runPluginsAfter execs ctx, isErrorEv ev = false := by
  intro ev hev
  unfold runPluginsAfter at hev
  obtain ⟨x, hx, heq⟩ := List.mem_filterMap.mp hev
  by_cases ha : x.plugin.hasAfter
  · rw [if_pos ha] at heq
    injection heq with heq2
    rw [← heq2]
    rfl
  · rw [if_neg ha] at heq
    exact absurd heq (by simp)

theorem no_errorEv_runPluginsOnError {α : Type}
    (execs : List (PluginExecution α)) (ctx : PluginContext α) (e : α) :
    ∀ ev ∈ runPluginsOnError execs ctx e, isErrorEv ev = false := by
  intro ev hev
  unfold runPluginsOnError at hev
  obtain ⟨x, hx, heq⟩ := List.mem_filterMap.mp hev
  by_cases ha : x.plugin.hasOnError
  · rw [if_pos ha] at heq
    injection heq with heq2
    rw [← heq2]
    rfl
  · rw [if_neg ha] at heq
    exact absurd heq (by simp)

theorem no_errorEv_runMethod {α : Type} (hooks : WrapHooks α) (m : Str)
    (args : List α) (outcome : α ⊕ Thrown α)
    (execs : List (PluginExecution α)) :
    ∀ ev ∈ (runMethodWithPlugins hooks m args outcome execs).2,
      isErrorEv ev = false := by
  intro ev hev
  unfold runMethodWithPlugins at hev
  cases outcome with
  | inl v =>
    simp only [List.mem_cons, List.mem_append] at hev
    rcases hev with h | h | h
    · rw [h]; rfl
    · exact no_errorEv_runPluginsAfter execs ⟨m, args, some v⟩ ev h
    · unfold runAfterHook at h
      cases ha : hooks.after with
      | none => rw [ha] at h; simp at h
      | some f =>
        rw [ha] at h
        simp at h
        rw [h]
        rfl
  | inr thrown =>
    simp only [List.mem_cons, List.mem_append] at hev
    rcases hev with h | h | h
    · rw [h]; rfl
    · cases thrown with
      | err e => exact no_errorEv_runPluginsOnError execs ⟨m, args, none⟩ e ev h
      | raw v => simp at h
    · unfold handleError at h
      cases ho : hooks.onError with
      | none => rw [ho] at h; simp at h
      | some f =>
        cases thrown with
        | err e =>
          rw [ho] at h
          simp at h
          rw [h]
          rfl
        | raw v => rw [ho] at h; simp at h

theorem no_errorEv_emitCompletion {α : Type} (state : WrapperState α) (m : Str)
    (ms : ℚ) :
    ∀ ev ∈ (emitCompletion state m ms).2, isErrorEv ev = false := by
  intro ev hev
  unfold emitCompletion at hev
  cases h : state.rlInflight with
  | none =>
    simp [h] at hev
    rw [hev]
    rfl
  | some counts =>
    simp [h] at hev
    rw [hev]
    rfl

theorem executeCore_no_errorEv {α : Type} (state : WrapperState α) (m : Str)
    (args : List α) (oracle : CallOracle α) :
    ∀ ev ∈ (executeCore state m args oracle).2.2, isErrorEv ev = false := by
  intro ev hev
  simp only [executeCore, List.mem_cons, List.mem_append] at hev
  rcases hev with h | ((((h | h) | h) | h) | h)
  · rw [h]; rfl
  · exact no_errorEv_wait state m oracle.denials ev h
  · exact no_errorEv_runBeforeHook _ m args ev h
  · exact no_errorEv_runPluginsBefore _ _ ev h
  · exact no_errorEv_runMethod _ m _ oracle.outcome _ ev h
  · exact no_errorEv_emitCompletion _ m oracle.latencyMs ev h

theorem executeWithHooks_no_errorEv {α : Type} (state : WrapperState α) (m : Str)
    (args : List α) (oracle : CallOracle α) :
    ∀ ev ∈ (executeWithHooks state m args oracle).trace, isErrorEv ev = false := by
  intro ev hev
  simp only [executeWithHooks] at hev
  cases hacc : (checkAccess m state.allowlist state.blocklist).reason with
  | some r => simp only [hacc] at hev; simp at hev
  | none =>
    simp only [hacc] at hev
    cases hqs : state.queueState with
    | some qs =>
      simp only [hqs] at hev
      cases hpr : (enqueue qs m
          ((state.perCallOptions.bind fun o => o.priority).getD .normal)
          (PendingCall.mk args oracle)).2 with
      | rejectedFull =>
        simp only [hpr] at hev
        simp at hev
        rw [hev]
        rfl
      | enqueued d =>
        simp only [hpr] at hev
        simp at hev
        rw [hev]
        rfl
    | none =>
      simp only [hqs] at hev
      exact executeCore_no_errorEv state m args oracle ev hev

theorem runDispatched_no_errorEv {α : Type} (state : WrapperState α)
    (req : QueuedRequest (PendingCall α)) :
    ∀ ev ∈ (runDispatched state req).2.1, isErrorEv ev = false := by
  intro ev hev
  simp only [runDispatched] at hev
  cases hqs : (executeCore state req.methodPath req.payload.args
      req.payload.oracle).2.1.queueState with
  | none =>
    rw [hqs] at hev
    exact executeCore_no_errorEv state req.methodPath req.payload.args
      req.payload.oracle ev hev
  | some qs =>
    rw [hqs] at hev
    exact executeCore_no_errorEv state req.methodPath req.payload.args
      req.payload.oracle ev hev

theorem stepOp_invariant {α : Type} (w : WorldState α) (op : Op α) :
    (stepOp w op).1.wrapper.stats.errorRate = w.wrapper.stats.errorRate ∧
    (stepOp w op).1.wrapper.stats.requestsPerMinute =
      w.wrapper.stats.requestsPerMinute ∧
    ∀ ev ∈ (stepOp w op).2, isErrorEv ev = false := by
  cases op with
  | call method args oracle =>
    refine ⟨(executeWithHooks_stats _ _ _ _).1, (executeWithHooks_stats _ _ _ _).2,
      ?_⟩
    exact executeWithHooks_no_errorEv w.wrapper method args oracle
  | pauseOp =>
    unfold stepOp
    cases h : w.wrapper.queueState <;> simp [h]
  | resumeOp =>
    unfold stepOp
    cases h : w.wrapper.queueState <;> simp [h]
  | clearOp =>
    unfold stepOp
    cases h : w.wrapper.queueState <;> simp [h]
  | finish n =>
    unfold stepOp
    cases h : w.inflight[n]? with
    | none => simp [h]
    | some req =>
      simp only [h]
      exact ⟨(runDispatched_stats _ _).1, (runDispatched_stats _ _).2,
        runDispatched_no_errorEv w.wrapper req⟩
  | withOptionsOp opts => exact ⟨rfl, rfl, by simp [stepOp]⟩
  | useOp p => exact ⟨rfl, rfl, by simp [stepOp]⟩

/-- **C10.**  In every state reachable by any sequence of operations from a
freshly created wrapper, the stats fields `errorRate` and
`requestsPerMinute` are still `0` (they are initialised to `0` and no
operation ever writes them), and the declared `error` event is never
emitted by any operation. -/
theorem C10_inert_stats_and_error_event (α : Type) (hooks : WrapHooks α)
    (allowlist blocklist : Option (List Str)) (queueConfig : Option QueueConfig)
    (hasRateLimiter : Bool) (ops : List (Op α)) :
    (runOps
        { wrapper := createInitialState α hooks allowlist blocklist queueConfig
            hasRateLimiter,
          inflight := [] } ops).1.wrapper.stats.errorRate = 0 ∧
    (runOps
        { wrapper := createInitialState α hooks allowlist blocklist queueConfig
            hasRateLimiter,
          inflight := [] } ops).1.wrapper.stats.requestsPerMinute = 0 ∧
    ∀ ev ∈ (runOps
        { wrapper := createInitialState α hooks allowlist blocklist queueConfig
            hasRateLimiter,
          inflight := [] } ops).2, isErrorEv ev = false := by
  have main : ∀ (l : List (Op α)) (w : WorldState α),
      (runOps w l).1.wrapper.stats.errorRate = w.wrapper.stats.errorRate ∧
      (runOps w l).1.wrapper.stats.requestsPerMinute =
        w.wrapper.stats.requestsPerMinute ∧
      ∀ ev ∈ (runOps w l).2, isErrorEv ev = false := by
    intro l
    induction l with
    | nil => exact fun w => ⟨rfl, rfl, by simp [runOps]⟩
    | cons op rest ih =>
      intro w
      obtain ⟨h1, h2, h3⟩ := stepOp_invariant w op
      obtain ⟨g1, g2, g3⟩ := ih (stepOp w op).1
      refine ⟨g1.trans h1, g2.trans h2, ?_⟩
      intro ev hev
      simp only [runOps, List.mem_append] at hev
      rcases hev with h | h
      · exact h3 ev h
      · exact g3 ev h
  obtain ⟨h1, h2, h3⟩ := main ops
    { wrapper := createInitialState α hooks allowlist blocklist queueConfig
        hasRateLimiter,
      inflight := [] }
  exact ⟨h1, h2, h3⟩

end Wrapkit
